import Mathlib

/-!
Verification of the `hamming-heap` crate: bucket-array priority queues for
Hamming-space nearest-neighbor search.

Shallow embedding of `src/fixed_heap.rs` (`FixedHammingHeap`) and
`src/heap.rs` (`HammingHeap128`). Rust `Vec<T>` buckets become `List T`
(with `Vec::push` appending at the end and `Vec::pop` removing the last
element). Operations that can panic in Rust (out-of-bounds bucket index,
`assert_ne!` failures) return `Option`, with `none` standing for the panic.
A few total operations use `List.take`/`List.getD` at places where Rust
would panic on an out-of-range index (`worst >= distances.len()`); every
state reached in this development has `worst < distances.len()` there, where
the two coincide, and the comment at each such spot records it.
-/

namespace HammingVerify

/-- Total number of items held across all buckets. -/
def totalCount {T : Type} (l : List (List T)) : Nat :=
  (l.map List.length).sum

/-! ## `FixedHammingHeap` (src/fixed_heap.rs) -/

/-- State of `FixedHammingHeap<T>`: capacity, current size, the `worst`
watermark, and the bucket array indexed by distance. -/
structure FixedHammingHeap (T : Type) where
  cap : Nat
  size : Nat
  worst : Nat
  distances : List (List T)
  deriving DecidableEq, Repr

namespace FixedHammingHeap

variable {T : Type}

/-- `Default::default()` / `FixedHammingHeap::new()`. -/
def new : FixedHammingHeap T :=
  { cap := 0, size := 0, worst := 0, distances := [] }

/-- `at_cap()`: `self.size == self.cap`. -/
def at_cap (h : FixedHammingHeap T) : Bool :=
  h.size == h.cap

/-- `end()`: the smallest known inclusive end of the data structure.
(Named `endIdx` because `end` is a Lean keyword.) -/
def endIdx (h : FixedHammingHeap T) : Nat :=
  if h.size = h.cap then h.worst else h.distances.length - 1

/-- `set_distances(distances)`: `distances` fresh empty buckets,
`worst = distances - 1`, `size = 0` (the `cap` field is untouched). -/
def set_distances (h : FixedHammingHeap T) (distances : Nat) : FixedHammingHeap T :=
  { h with distances := List.replicate distances []
         , worst := distances - 1
         , size := 0 }

/-- `new_distances(distances)`. -/
def new_distances (distances : Nat) : FixedHammingHeap T :=
  FixedHammingHeap.new.set_distances distances

/-- `update_worst()`: rescan `distances[0..=worst]` backward for the last
non-empty bucket; if none is found reset `worst` to `distances.len() - 1`.
The Rust slice `[0..=worst]` panics when `worst >= distances.len()`; this
model uses `take (worst + 1)`, which agrees whenever `worst < distances.len()`
(true at every call site reached below). -/
def update_worst (h : FixedHammingHeap T) : FixedHammingHeap T :=
  { h with worst :=
      match ((h.distances.take (h.worst + 1)).reverse.findIdx? (fun v => !v.isEmpty)) with
      | some n => h.worst - n
      | none => h.distances.length - 1 }

/-- `remove_worst()`: `self.distances[self.worst].pop()` then `update_worst`.
`Vec::pop` removes the last element (no-op on an empty bucket). Rust panics
when `worst >= distances.len()`; the model's `set`/`getD` agree with it
whenever `worst < distances.len()` (true at every call site reached below). -/
def remove_worst (h : FixedHammingHeap T) : FixedHammingHeap T :=
  update_worst
    { h with distances := h.distances.set h.worst ((h.distances.getD h.worst []).dropLast) }

/-- `push_at_cap(distance, item)`: the Full-state fast path. Checks
`distance < worst` first; only then does it index `distances[distance]`
(`none` = Rust's out-of-bounds panic). Returns the updated heap and whether
the item was kept. -/
def push_at_cap (h : FixedHammingHeap T) (distance : Nat) (item : T) :
    Option (FixedHammingHeap T × Bool) :=
  if distance < h.worst then
    if distance < h.distances.length then
      some (remove_worst
        { h with distances := h.distances.set distance ((h.distances.getD distance []) ++ [item]) },
        true)
    else none
  else some (h, false)

/-- `push(distance, item)`: if `size != cap`, insert into bucket `distance`
(`none` = out-of-bounds panic), bump `size`, and recompute `worst` when the
heap just became full; otherwise defer to `push_at_cap`. -/
def push (h : FixedHammingHeap T) (distance : Nat) (item : T) :
    Option (FixedHammingHeap T × Bool) :=
  if h.size ≠ h.cap then
    if distance < h.distances.length then
      let h1 : FixedHammingHeap T :=
        { h with distances := h.distances.set distance ((h.distances.getD distance []) ++ [item])
               , size := h.size + 1 }
      some (if h1.size = h1.cap then h1.update_worst else h1, true)
    else none
  else h.push_at_cap distance item

/-- The in-place bucket walk of `set_len`: starting at bucket 0, drain the
last `remaining` items of the first bucket that has at least that many,
clearing whole (smaller) buckets on the way. (`vec.drain(vec.len() - remaining..)`
removes the last `remaining` elements, i.e. keeps `take (len - remaining)`.) -/
def drainFront : List (List T) → Nat → List (List T)
  | [], _ => []
  | v :: rest, remaining =>
    if remaining ≤ v.length then v.take (v.length - remaining) :: rest
    else [] :: drainFront rest (remaining - v.length)

/-- `set_len(len)`: `len == 0` clears buckets `[0..=end]`; `0 < len < size`
removes `size - len` items by walking the buckets `[0..=end]` from index 0
upward (`drainFront`), then resets `worst` to `distances.len() - 1` and sets
`size := len`; otherwise a no-op. -/
def set_len (h : FixedHammingHeap T) (len : Nat) : FixedHammingHeap T :=
  if len = 0 then
    { h with
      distances :=
        (h.distances.take (h.endIdx + 1)).map (fun _ => []) ++ h.distances.drop (h.endIdx + 1),
      size := 0,
      worst := h.distances.length - 1 }
  else if len < h.size then
    { h with
      distances :=
        drainFront (h.distances.take (h.endIdx + 1)) (h.size - len) ++ h.distances.drop (h.endIdx + 1),
      worst := h.distances.length - 1,
      size := len }
  else h

/-- `set_capacity(cap)`: `assert_ne!(cap, 0)` (modelled as `none`), then
`set_len(cap)`, set `cap`, reset `worst` to `distances.len() - 1`, and if
`size == cap` recompute the real `worst`. -/
def set_capacity (h : FixedHammingHeap T) (cap : Nat) : Option (FixedHammingHeap T) :=
  if cap = 0 then none
  else
    let h1 := h.set_len cap
    let h2 : FixedHammingHeap T := { h1 with cap := cap, worst := h1.distances.length - 1 }
    some (if h2.size = h2.cap then h2.update_worst else h2)

/-- `clear()`: asserts `distances.len() != 0` (modelled as `none`), then
clears buckets `[0..=end]`, `size := 0`, `worst := distances.len() - 1`. -/
def clear (h : FixedHammingHeap T) : Option (FixedHammingHeap T) :=
  if h.distances.length = 0 then none
  else
    some { h with
           distances :=
             (h.distances.take (h.endIdx + 1)).map (fun _ => []) ++ h.distances.drop (h.endIdx + 1),
           size := 0,
           worst := h.distances.length - 1 }

/-- `len()`. -/
def len (h : FixedHammingHeap T) : Nat := h.size

/-- `fill_slice(s)`: writes `min (s.len(), size)` items, taken from the
flattened buckets `[0..=end]` in ascending-distance order, into the front of
`s`, and returns the written portion `s[0..total_fill]` (positions the write
loop did not reach keep the buffer's old contents). -/
def fill_slice (h : FixedHammingHeap T) (s : List T) : List T :=
  let total_fill := min s.length h.size
  let written := ((h.distances.take (h.endIdx + 1)).flatten).take total_fill
  (written ++ s.drop written.length).take total_fill

end FixedHammingHeap

/-! ## `HammingHeap128` (src/heap.rs) -/

/-- State of `HammingHeap128<T>`: 129 buckets (`[Vec<T>; 129]`) and the
`best` watermark. -/
structure HammingHeap128 (T : Type) where
  distances : List (List T)
  best : Nat
  deriving DecidableEq, Repr

namespace HammingHeap128

variable {T : Type}

/-- `Default::default()`: 129 empty buckets, `best = 0`. -/
def new : HammingHeap128 T :=
  { distances := List.replicate 129 [], best := 0 }

/-- `push(distance, node)`: rewind `best` when `distance < best`, then append
to bucket `distance`; `none` models the out-of-bounds panic on
`distances[distance]` when `distance >= 129` (the `[Vec<T>; 129]` bound).
The panic aborts, so the preceding `best` update is unobservable. -/
def push (h : HammingHeap128 T) (distance : Nat) (node : T) : Option (HammingHeap128 T) :=
  if distance < 129 then
    some { distances := h.distances.set distance ((h.distances.getD distance []) ++ [node])
         , best := if distance < h.best then distance else h.best }
  else none

/-- The loop of `pop()`: try `distances[b].pop()` (take the last element);
on an empty bucket stop when `b == 128`, else advance to `b + 1`. The scan
mutates `best` even when nothing is found, so the new bucket array and
cursor are returned in every case. Rust would panic on `b >= 129` (never
reached: `best <= 128` always). -/
def popAux (l : List (List T)) (b : Nat) : Option (Nat × T) × (List (List T) × Nat) :=
  match (l.getD b []).getLast? with
  | some x => (some (b, x), (l.set b (l.getD b []).dropLast, b))
  | none => if hb : b < 128 then popAux l (b + 1) else (none, (l, b))
termination_by 129 - b

/-- `pop()`: remove and return one nearest item, advancing `best` past the
empty buckets it scanned (also on failure). -/
def pop (h : HammingHeap128 T) : Option (Nat × T) × HammingHeap128 T :=
  ((popAux h.distances h.best).1, ⟨(popAux h.distances h.best).2.1, (popAux h.distances h.best).2.2⟩)

/-- `clear()`: clear buckets `[best..]` and reset `best` to 0. -/
def clear (h : HammingHeap128 T) : HammingHeap128 T :=
  { distances := h.distances.take h.best ++ (h.distances.drop h.best).map (fun _ => [])
  , best := 0 }

end HammingHeap128

/-! ## Derived notions used by the statements -/

/-- The multiset of distances held by a bucket array: bucket `d` (counting
from base index `i`) contributes `bucket.length` copies of `i + d`. -/
def distListFrom {T : Type} : Nat → List (List T) → List Nat
  | _, [] => []
  | i, v :: rest => List.replicate v.length i ++ distListFrom (i + 1) rest

/-- The multiset of distances held by a bucket array. -/
def distMSl {T : Type} (l : List (List T)) : Multiset Nat :=
  (distListFrom 0 l : List Nat)

/-- The multiset of distances currently held by a `FixedHammingHeap`. -/
def distMS {T : Type} (h : FixedHammingHeap T) : Multiset Nat :=
  distMSl h.distances

/-- Push a whole list of `(distance, item)` pairs, `none` when any push
panics. The returned `Bool` of each push is discarded. -/
def pushList {T : Type} (h : FixedHammingHeap T) : List (Nat × T) → Option (FixedHammingHeap T)
  | [] => some h
  | (d, x) :: rest =>
    match h.push d x with
    | none => none
    | some (h1, _) => pushList h1 rest

/-- `new()` followed by `set_distances(D)` followed by `set_capacity(k)`:
the configured starting state of every scenario below. -/
def configure (T : Type) (D k : Nat) : Option (FixedHammingHeap T) :=
  (FixedHammingHeap.new.set_distances D : FixedHammingHeap T).set_capacity k

/-- One mutating API call on a `FixedHammingHeap`. -/
inductive FOp (T : Type) where
  | pushOp (d : Nat) (x : T)
  | setLenOp (n : Nat)
  | setCapOp (c : Nat)
  | clearOp

/-- Run one API call; `none` models a panic. -/
def applyFOp {T : Type} (h : FixedHammingHeap T) : FOp T → Option (FixedHammingHeap T)
  | .pushOp d x => (h.push d x).map Prod.fst
  | .setLenOp n => some (h.set_len n)
  | .setCapOp c => h.set_capacity c
  | .clearOp => h.clear

/-- Run a sequence of API calls. -/
def applyFOps {T : Type} (h : FixedHammingHeap T) : List (FOp T) → Option (FixedHammingHeap T)
  | [] => some h
  | op :: rest =>
    match applyFOp h op with
    | none => none
    | some h1 => applyFOps h1 rest

/-- The `worst` cursor is exact: bucket `worst` is non-empty and every bucket
strictly above `worst` is empty. -/
def WorstExact {T : Type} (h : FixedHammingHeap T) : Prop :=
  h.distances.getD h.worst [] ≠ [] ∧ ∀ i, h.worst < i → h.distances.getD i [] = []

/-- The state invariant of a configured `FixedHammingHeap`. -/
structure FInv {T : Type} (h : FixedHammingHeap T) : Prop where
  hD : 1 ≤ h.distances.length
  hk : 1 ≤ h.cap
  hsize : h.size = totalCount h.distances
  hsc : h.size ≤ h.cap
  hw : h.worst < h.distances.length
  hfull : h.size = h.cap → WorstExact h
  hopen : h.size < h.cap → h.worst = h.distances.length - 1

/-- `s` is a choice of `min k |m|` elements of `m`, every one of which is
`≤` every element left out: "the `k` smallest, ties broken arbitrarily". -/
def IsSelection (k : Nat) (m s : Multiset Nat) : Prop :=
  s ≤ m ∧ s.card = min k m.card ∧ ∀ x ∈ s, ∀ y ∈ m - s, x ≤ y

/-- The `k` smallest elements of `m` (with multiplicity): the first `k` of a
sorted enumeration. -/
def kSmallest (k : Nat) (m : Multiset Nat) : Multiset Nat :=
  ((m.sort (· ≤ ·)).take k : List Nat)

/-- Every item in bucket `i` (counting from base `b`) is a pair whose first
component is its own distance `b + i`. -/
def TaggedFrom {α : Type} (b : Nat) (l : List (List (Nat × α))) : Prop :=
  ∀ i q, q ∈ l.getD i [] → q.1 = b + i

/-! Derived notions for `HammingHeap128`. -/

namespace HammingHeap128

variable {T : Type}

/-- Push a whole list of `(distance, node)` pairs; `none` when any push
panics. -/
def pushList (h : HammingHeap128 T) : List (Nat × T) → Option (HammingHeap128 T)
  | [] => some h
  | (d, x) :: rest =>
    match h.push d x with
    | none => none
    | some h1 => pushList h1 rest

/-- Pop up to `fuel` times, collecting the popped `(distance, item)` pairs
and the final state. -/
def drainN (fuel : Nat) (h : HammingHeap128 T) : List (Nat × T) × HammingHeap128 T :=
  match fuel with
  | 0 => ([], h)
  | fuel + 1 =>
    match h.pop with
    | (none, h1) => ([], h1)
    | (some p, h1) =>
      let r := drainN fuel h1
      (p :: r.1, r.2)

/-- One mutating API call on a `HammingHeap128`. -/
inductive HOp (T : Type) where
  | pushOp (d : Nat) (x : T)
  | popOp
  | clearOp

/-- Run one API call; `none` models a panic. -/
def applyHOp (h : HammingHeap128 T) : HOp T → Option (HammingHeap128 T)
  | .pushOp d x => h.push d x
  | .popOp => some h.pop.2
  | .clearOp => some h.clear

/-- Run a sequence of API calls. -/
def applyHOps (h : HammingHeap128 T) : List (HOp T) → Option (HammingHeap128 T)
  | [] => some h
  | op :: rest =>
    match applyHOp h op with
    | none => none
    | some h1 => applyHOps h1 rest

/-- The `best` cursor invariant: 129 buckets, `best ≤ 128`, and every bucket
strictly below `best` is empty. -/
structure HInv (h : HammingHeap128 T) : Prop where
  hlen : h.distances.length = 129
  hb : h.best ≤ 128
  hbelow : ∀ i, i < h.best → h.distances.getD i [] = []

end HammingHeap128

end HammingVerify

namespace HammingVerify

/-- The multiset of `(distance, item)` pairs held by a bucket array: bucket
`d` (from base `i`) contributes its items tagged with `i + d`. -/
def pairListFrom {T : Type} : Nat → List (List T) → List (Nat × T)
  | _, [] => []
  | i, v :: rest => (v.map (fun x => (i, x))) ++ pairListFrom (i + 1) rest

end HammingVerify

/-! ## List-level infrastructure lemmas -/

namespace HammingVerify

variable {T : Type}

theorem totalCount_cons (v : List T) (l : List (List T)) :
    totalCount (v :: l) = v.length + totalCount l := by
  simp [totalCount]

theorem getD_eq_getElem (l : List T) (d : Nat) (x : T) (hd : d < l.length) :
    l.getD d x = l[d] := by
  simp [List.getD_eq_getElem?_getD, List.getElem?_eq_getElem hd]

theorem totalCount_set_append (l : List (List T)) (d : Nat) (x : T) (hd : d < l.length) :
    totalCount (l.set d (l.getD d [] ++ [x])) = totalCount l + 1 := by
  induction l generalizing d with
  | nil => simp at hd
  | cons v rest ih =>
    cases d with
    | zero =>
      simp only [List.set_cons_zero, List.getD_cons_zero, totalCount_cons,
        List.length_append, List.length_singleton]
      omega
    | succ d =>
      simp only [List.set_cons_succ, totalCount_cons, List.getD_cons_succ]
      have := ih d (by simpa using hd)
      omega

theorem totalCount_set_dropLast (l : List (List T)) (d : Nat) (hd : d < l.length)
    (hne : l.getD d [] ≠ []) :
    totalCount (l.set d (l.getD d []).dropLast) + 1 = totalCount l := by
  induction l generalizing d with
  | nil => simp at hd
  | cons v rest ih =>
    cases d with
    | zero =>
      simp only [List.getD_cons_zero] at hne
      simp only [List.set_cons_zero, List.getD_cons_zero, totalCount_cons, List.length_dropLast]
      have : 0 < v.length := List.length_pos.mpr hne
      omega
    | succ d =>
      simp only [List.getD_cons_succ] at hne
      simp only [List.set_cons_succ, totalCount_cons, List.getD_cons_succ]
      have := ih d (by simpa using hd) hne
      omega

theorem length_distListFrom (i : Nat) (l : List (List T)) :
    (distListFrom i l).length = totalCount l := by
  induction l generalizing i with
  | nil => simp [distListFrom, totalCount]
  | cons v rest ih => simp [distListFrom, totalCount_cons, ih]

theorem distListFrom_set_append (l : List (List T)) (i d : Nat) (x : T) (hd : d < l.length) :
    List.Perm (distListFrom i (l.set d (l.getD d [] ++ [x])))
      ((i + d) :: distListFrom i l) := by
  induction l generalizing i d with
  | nil => simp at hd
  | cons v rest ih =>
    cases d with
    | zero =>
      simp only [List.set_cons_zero, List.getD_cons_zero, distListFrom, Nat.add_zero]
      rw [List.length_append, List.length_singleton, List.replicate_add,
        List.replicate_one, List.append_assoc]
      exact List.perm_middle
    | succ d =>
      simp only [List.set_cons_succ, List.getD_cons_succ, distListFrom]
      have hperm := List.Perm.append_left (List.replicate v.length i)
        (ih (i + 1) d (by simpa using hd))
      have he : i + 1 + d = i + (d + 1) := by omega
      rw [he] at hperm
      exact hperm.trans List.perm_middle

theorem distListFrom_set_dropLast (l : List (List T)) (i d : Nat) (hd : d < l.length)
    (hne : l.getD d [] ≠ []) :
    List.Perm (distListFrom i l)
      ((i + d) :: distListFrom i (l.set d (l.getD d []).dropLast)) := by
  induction l generalizing i d with
  | nil => simp at hd
  | cons v rest ih =>
    cases d with
    | zero =>
      simp only [List.getD_cons_zero] at hne
      simp only [List.set_cons_zero, List.getD_cons_zero, distListFrom, Nat.add_zero]
      conv_lhs => rw [← List.dropLast_append_getLast hne]
      rw [List.length_append, List.length_singleton, List.replicate_add,
        List.replicate_one, List.append_assoc]
      exact List.perm_middle
    | succ d =>
      simp only [List.getD_cons_succ] at hne
      simp only [List.set_cons_succ, List.getD_cons_succ, distListFrom]
      have hperm := List.Perm.append_left (List.replicate v.length i)
        (ih (i + 1) d (by simpa using hd) hne)
      refine hperm.trans ?_
      have he : i + 1 + d = i + (d + 1) := by omega
      rw [he]
      exact List.perm_middle

theorem mem_distListFrom {j i : Nat} {l : List (List T)} :
    j ∈ distListFrom i l ↔ ∃ d, d < l.length ∧ j = i + d ∧ l.getD d [] ≠ [] := by
  induction l generalizing i with
  | nil => simp [distListFrom]
  | cons v rest ih =>
    simp only [distListFrom, List.mem_append, List.mem_replicate, ih]
    constructor
    · rintro (⟨hv, rfl⟩ | ⟨d, hd, rfl, hne⟩)
      · refine ⟨0, by simp, by omega, ?_⟩
        simp only [List.getD_cons_zero]
        exact fun h => hv (by simp [h])
      · exact ⟨d + 1, by simpa using Nat.succ_lt_succ hd, by omega, by simpa using hne⟩
    · rintro ⟨d, hd, rfl, hne⟩
      cases d with
      | zero =>
        left
        simp only [List.getD_cons_zero] at hne
        exact ⟨fun h => hne (List.length_eq_zero.mp h), by omega⟩
      | succ d =>
        right
        exact ⟨d, by simpa using hd, by omega, by simpa using hne⟩

/-! ## Characterizing the backward scan of `update_worst` -/

@[simp] theorem update_worst_distances (h : FixedHammingHeap T) :
    (h.update_worst).distances = h.distances := rfl

@[simp] theorem update_worst_size (h : FixedHammingHeap T) :
    (h.update_worst).size = h.size := rfl

@[simp] theorem update_worst_cap (h : FixedHammingHeap T) :
    (h.update_worst).cap = h.cap := rfl

theorem take_one_eq (l : List (List T)) (h0 : 0 < l.length) :
    l.take 1 = [l.getD 0 []] := by
  rw [show (1 : Nat) = 0 + 1 from rfl, List.take_succ]
  simp [List.getElem?_eq_getElem h0, getD_eq_getElem l 0 [] h0]

theorem take_two_eq (l : List (List T)) (w : Nat) (hw : w + 1 < l.length) :
    l.take (w + 2) = l.take (w + 1) ++ [l.getD (w + 1) []] := by
  rw [List.take_succ, List.getElem?_eq_getElem hw, getD_eq_getElem l (w + 1) [] hw]
  rfl

theorem backScan_zero_empty (l : List (List T)) (h0 : 0 < l.length)
    (hc : l.getD 0 [] = []) :
    (l.take 1).reverse.findIdx? (fun v : List T => !v.isEmpty) = none := by
  rw [take_one_eq l h0]
  rw [List.getD_eq_getElem?_getD] at hc
  simp [hc]

theorem backScan_zero_nonempty (l : List (List T)) (h0 : 0 < l.length)
    (hc : l.getD 0 [] ≠ []) :
    (l.take 1).reverse.findIdx? (fun v : List T => !v.isEmpty) = some 0 := by
  rw [take_one_eq l h0]
  rw [List.getD_eq_getElem?_getD] at hc
  simp [hc]

theorem backScan_succ_empty (l : List (List T)) (w : Nat) (hw : w + 1 < l.length)
    (hc : l.getD (w + 1) [] = []) :
    (l.take (w + 2)).reverse.findIdx? (fun v : List T => !v.isEmpty) =
      ((l.take (w + 1)).reverse.findIdx? (fun v : List T => !v.isEmpty)).map
        (fun n => n + 1) := by
  rw [take_two_eq l w hw, List.reverse_concat, List.findIdx?_cons]
  rw [List.getD_eq_getElem?_getD] at hc
  simp [hc, List.findIdx?_succ]

theorem backScan_succ_nonempty (l : List (List T)) (w : Nat) (hw : w + 1 < l.length)
    (hc : l.getD (w + 1) [] ≠ []) :
    (l.take (w + 2)).reverse.findIdx? (fun v : List T => !v.isEmpty) = some 0 := by
  rw [take_two_eq l w hw, List.reverse_concat, List.findIdx?_cons]
  rw [List.getD_eq_getElem?_getD] at hc
  simp [hc]

theorem backScan_found (l : List (List T)) :
    ∀ w, w < l.length → ∀ j, j ≤ w → l.getD j [] ≠ [] →
      ∃ n, (l.take (w + 1)).reverse.findIdx? (fun v : List T => !v.isEmpty) = some n ∧ n ≤ w ∧
        l.getD (w - n) [] ≠ [] ∧ ∀ m, w - n < m → m ≤ w → l.getD m [] = [] := by
  intro w
  induction w with
  | zero =>
    intro hw j hj hne
    have hj0 : j = 0 := by omega
    subst hj0
    refine ⟨0, ?_, Nat.le_refl 0, hne, fun m hm hm2 => by omega⟩
    exact backScan_zero_nonempty l hw hne
  | succ w ih =>
    intro hw j hj hne
    by_cases hc : l.getD (w + 1) [] = []
    · have hj2 : j ≤ w := by
        rcases Nat.lt_or_ge j (w + 1) with h1 | h1
        · omega
        · exfalso
          have hj3 : j = w + 1 := by omega
          exact hne (hj3 ▸ hc)
      obtain ⟨n, hfind, hn, hnne, hmax⟩ := ih (by omega) j hj2 hne
      refine ⟨n + 1, ?_, by omega, ?_, ?_⟩
      · rw [show w + 1 + 1 = w + 2 from rfl, backScan_succ_empty l w hw hc, hfind]
        rfl
      · have he : w + 1 - (n + 1) = w - n := by omega
        rw [he]
        exact hnne
      · intro m hm1 hm2
        have he : w + 1 - (n + 1) = w - n := by omega
        rw [he] at hm1
        rcases Nat.lt_or_ge m (w + 1) with h2 | h2
        · exact hmax m hm1 (by omega)
        · have hm3 : m = w + 1 := by omega
          rw [hm3]
          exact hc
    · refine ⟨0, ?_, by omega, by simpa using hc, fun m hm1 hm2 => by omega⟩
      rw [show w + 1 + 1 = w + 2 from rfl]
      exact backScan_succ_nonempty l w hw hc

theorem backScan_empty (l : List (List T)) (w : Nat) (hw : w < l.length)
    (hall : ∀ j, j ≤ w → l.getD j [] = []) :
    (l.take (w + 1)).reverse.findIdx? (fun v : List T => !v.isEmpty) = none := by
  rw [List.findIdx?_eq_none_iff]
  intro x hx
  rw [List.mem_reverse] at hx
  obtain ⟨n, hn, hx⟩ := List.getElem_of_mem hx
  have hn2 : n < w + 1 := by
    have := hn
    simp only [List.length_take] at this
    omega
  have hnl : n < l.length := by omega
  have hxval : x = l.getD n [] := by
    rw [← hx, getD_eq_getElem l n [] hnl]
    simp
  rw [hxval, hall n (by omega)]
  simp

theorem update_worst_worst_found (h : FixedHammingHeap T) (hw : h.worst < h.distances.length)
    (j : Nat) (hj : j ≤ h.worst) (hne : h.distances.getD j [] ≠ []) :
    (h.update_worst).worst ≤ h.worst ∧
      h.distances.getD (h.update_worst).worst [] ≠ [] ∧
      ∀ m, (h.update_worst).worst < m → m ≤ h.worst → h.distances.getD m [] = [] := by
  obtain ⟨n, hfind, hn, hnne, hmax⟩ := backScan_found h.distances h.worst hw j hj hne
  have hval : (h.update_worst).worst = h.worst - n := by
    simp [FixedHammingHeap.update_worst, hfind]
  rw [hval]
  exact ⟨by omega, hnne, hmax⟩

theorem update_worst_worst_empty (h : FixedHammingHeap T) (hw : h.worst < h.distances.length)
    (hall : ∀ j, j ≤ h.worst → h.distances.getD j [] = []) :
    (h.update_worst).worst = h.distances.length - 1 := by
  have hfind := backScan_empty h.distances h.worst hw hall
  simp [FixedHammingHeap.update_worst, hfind]

/-! ## Bucket update helpers and `distMS` facts -/

theorem getD_set_self (l : List (List T)) (i : Nat) (v : List T) (hi : i < l.length) :
    (l.set i v).getD i [] = v := by
  simp [List.getD_eq_getElem?_getD, List.getElem?_set_self (by simpa using hi)]

theorem getD_set_ne (l : List (List T)) (i j : Nat) (v : List T) (hij : i ≠ j) :
    (l.set i v).getD j [] = l.getD j [] := by
  simp [List.getD_eq_getElem?_getD, List.getElem?_set_ne hij]

theorem getD_eq_nil_of_le (l : List (List T)) (i : Nat) (hi : l.length ≤ i) :
    l.getD i [] = [] := by
  simp [List.getD_eq_getElem?_getD, List.getElem?_eq_none hi]

theorem distMSl_set_append (l : List (List T)) (d : Nat) (x : T) (hd : d < l.length) :
    distMSl (l.set d (l.getD d [] ++ [x])) = d ::ₘ distMSl l := by
  have hp := Multiset.coe_eq_coe.mpr (distListFrom_set_append l 0 d x hd)
  simpa [distMSl, Multiset.cons_coe] using hp

theorem distMSl_set_dropLast (l : List (List T)) (d : Nat) (hd : d < l.length)
    (hne : l.getD d [] ≠ []) :
    distMSl l = d ::ₘ distMSl (l.set d (l.getD d []).dropLast) := by
  have hp := Multiset.coe_eq_coe.mpr (distListFrom_set_dropLast l 0 d hd hne)
  simpa [distMSl, Multiset.cons_coe] using hp

theorem card_distMS (h : FixedHammingHeap T) :
    Multiset.card (distMS h) = totalCount h.distances := by
  simp [distMS, distMSl, length_distListFrom]

theorem mem_distMS {j : Nat} {h : FixedHammingHeap T} :
    j ∈ distMS h ↔ j < h.distances.length ∧ h.distances.getD j [] ≠ [] := by
  simp only [distMS, distMSl, Multiset.mem_coe, mem_distListFrom]
  constructor
  · rintro ⟨d, hd, rfl, hne⟩
    refine ⟨by omega, ?_⟩
    simpa using hne
  · rintro ⟨hj, hne⟩
    exact ⟨j, hj, by omega, hne⟩

theorem distMS_le_worst (h : FixedHammingHeap T) (hWE : WorstExact h) :
    ∀ x ∈ distMS h, x ≤ h.worst := by
  intro x hx
  rw [mem_distMS] at hx
  by_contra hgt
  exact hx.2 (hWE.2 x (by omega))

theorem worst_mem_distMS (h : FixedHammingHeap T) (hw : h.worst < h.distances.length)
    (hWE : WorstExact h) : h.worst ∈ distMS h := by
  rw [mem_distMS]
  exact ⟨hw, hWE.1⟩

/-! ## The behavior of `push` on an invariant-satisfying heap -/

theorem push_spec (h : FixedHammingHeap T) (d : Nat) (x : T) (hI : FInv h)
    (hd : d < h.distances.length) :
    ∃ h1 b, h.push d x = some (h1, b) ∧ FInv h1 ∧
      h1.cap = h.cap ∧ h1.distances.length = h.distances.length ∧
      (h.size < h.cap → b = true ∧ h1.size = h.size + 1 ∧ distMS h1 = d ::ₘ distMS h) ∧
      (h.size = h.cap → (b = true ↔ d < h.worst)) ∧
      (h.size = h.cap → d < h.worst →
        h1.size = h.size ∧ distMS h1 = d ::ₘ (distMS h).erase h.worst ∧ h1.worst ≤ h.worst) ∧
      (h.size = h.cap → ¬ d < h.worst → h1 = h ∧ b = false) := by
  have hlen1 : 1 ≤ h.distances.length := by omega
  have hIsize := hI.hsize
  have hIw := hI.hw
  rcases Nat.lt_or_eq_of_le hI.hsc with hlt | heq
  · -- Accepting state: size < cap
    have hne : h.size ≠ h.cap := by omega
    have hworst : h.worst = h.distances.length - 1 := hI.hopen hlt
    obtain ⟨hmid, hmdef⟩ : ∃ m : FixedHammingHeap T,
        m = { h with distances := h.distances.set d ((h.distances.getD d []) ++ [x])
                   , size := h.size + 1 } := ⟨_, rfl⟩
    have hm_size : hmid.size = h.size + 1 := by rw [hmdef]
    have hm_cap : hmid.cap = h.cap := by rw [hmdef]
    have hm_worst : hmid.worst = h.worst := by rw [hmdef]
    have hm_dist : hmid.distances = h.distances.set d ((h.distances.getD d []) ++ [x]) := by
      rw [hmdef]
    have hpush : h.push d x =
        some (if hmid.size = hmid.cap then hmid.update_worst else hmid, true) := by
      rw [hmdef]
      simp [FixedHammingHeap.push, hne, hd]
    have hmlen : hmid.distances.length = h.distances.length := by
      rw [hm_dist, List.length_set]
    have hmtotal : totalCount hmid.distances = totalCount h.distances + 1 := by
      rw [hm_dist]
      exact totalCount_set_append h.distances d x hd
    have hmdist : distMS hmid = d ::ₘ distMS h := by
      unfold distMS
      rw [hm_dist]
      exact distMSl_set_append h.distances d x hd
    have hbne : hmid.distances.getD d [] ≠ [] := by
      rw [hm_dist, getD_set_self h.distances d _ hd]
      simp
    have hmw : hmid.worst < hmid.distances.length := by
      rw [hm_worst, hmlen]
      exact hIw
    by_cases hcap2 : hmid.size = hmid.cap
    · -- the push just filled the heap: worst is recomputed
      obtain ⟨hle, hnew, hmax⟩ := update_worst_worst_found hmid hmw d
        (by rw [hm_worst, hworst]; omega) hbne
      refine ⟨hmid.update_worst, true, by rw [hpush, if_pos hcap2], ?_, ?_, ?_, ?_, ?_, ?_, ?_⟩
      · refine ⟨?_, ?_, ?_, ?_, ?_, ?_, ?_⟩
        · simp only [update_worst_distances]
          omega
        · simp only [update_worst_cap]
          rw [hm_cap]
          exact hI.hk
        · simp only [update_worst_size, update_worst_distances]
          rw [hm_size, hmtotal]
          omega
        · simp only [update_worst_size, update_worst_cap]
          omega
        · simp only [update_worst_distances]
          omega
        · intro _
          constructor
          · simp only [update_worst_distances]
            exact hnew
          · intro i hi
            simp only [update_worst_distances]
            rcases Nat.lt_or_ge i hmid.distances.length with h2 | h2
            · exact hmax i hi (by omega)
            · exact getD_eq_nil_of_le _ _ h2
        · intro hcon
          simp only [update_worst_size, update_worst_cap] at hcon
          omega
      · simp only [update_worst_cap]
        exact hm_cap
      · simp only [update_worst_distances]
        exact hmlen
      · intro _
        refine ⟨rfl, ?_, ?_⟩
        · simp only [update_worst_size]
          exact hm_size
        · have he : distMS hmid.update_worst = distMS hmid := by
            unfold distMS
            rw [update_worst_distances]
          rw [he, hmdist]
      · intro hc
        exact absurd hc (Nat.ne_of_lt hlt)
      · intro hc
        exact absurd hc (Nat.ne_of_lt hlt)
      · intro hc
        exact absurd hc (Nat.ne_of_lt hlt)
    · -- still not full after the push: worst untouched
      refine ⟨hmid, true, by rw [hpush, if_neg hcap2], ?_, hm_cap, hmlen, ?_, ?_, ?_, ?_⟩
      · refine ⟨?_, ?_, ?_, ?_, ?_, ?_, ?_⟩
        · omega
        · rw [hm_cap]; exact hI.hk
        · rw [hm_size, hmtotal]; omega
        · omega
        · exact hmw
        · intro hcon
          exact absurd hcon hcap2
        · intro _
          rw [hm_worst, hmlen, hworst]
      · intro _
        exact ⟨rfl, hm_size, hmdist⟩
      · intro hc
        exact absurd hc (Nat.ne_of_lt hlt)
      · intro hc
        exact absurd hc (Nat.ne_of_lt hlt)
      · intro hc
        exact absurd hc (Nat.ne_of_lt hlt)
  · -- Full state: size == cap, push defers to push_at_cap
    have hpush : h.push d x = h.push_at_cap d x := by
      simp [FixedHammingHeap.push, heq]
    have hWE : WorstExact h := hI.hfull heq
    by_cases hdw : d < h.worst
    · -- accepted: insert at d, evict from worst
      have hdnw : d ≠ h.worst := by omega
      obtain ⟨hmid, hmdef⟩ : ∃ m : FixedHammingHeap T,
          m = { h with distances := h.distances.set d ((h.distances.getD d []) ++ [x]) } := ⟨_, rfl⟩
      have hm_size : hmid.size = h.size := by rw [hmdef]
      have hm_cap : hmid.cap = h.cap := by rw [hmdef]
      have hm_worst : hmid.worst = h.worst := by rw [hmdef]
      have hm_dist : hmid.distances = h.distances.set d ((h.distances.getD d []) ++ [x]) := by
        rw [hmdef]
      obtain ⟨rem, hrdef⟩ : ∃ r : FixedHammingHeap T,
          r = { hmid with distances :=
                  hmid.distances.set hmid.worst ((hmid.distances.getD hmid.worst []).dropLast) } :=
        ⟨_, rfl⟩
      have hr_size : rem.size = h.size := by rw [hrdef]; exact hm_size
      have hr_cap : rem.cap = h.cap := by rw [hrdef]; exact hm_cap
      have hr_worst : rem.worst = h.worst := by rw [hrdef]; exact hm_worst
      have hr_dist : rem.distances =
          hmid.distances.set hmid.worst ((hmid.distances.getD hmid.worst []).dropLast) := by
        rw [hrdef]
      have hpac : h.push_at_cap d x = some (FixedHammingHeap.remove_worst hmid, true) := by
        rw [hmdef]
        simp [FixedHammingHeap.push_at_cap, hdw, hd]
      have hrr : FixedHammingHeap.remove_worst hmid = rem.update_worst := by
        rw [hrdef]
        rfl
      have hmlen : hmid.distances.length = h.distances.length := by
        rw [hm_dist, List.length_set]
      have hrlen : rem.distances.length = h.distances.length := by
        rw [hr_dist, List.length_set, hmlen]
      have hmbucketw : hmid.distances.getD h.worst [] = h.distances.getD h.worst [] := by
        rw [hm_dist]
        exact getD_set_ne h.distances d h.worst _ hdnw
      have hmbwne : hmid.distances.getD h.worst [] ≠ [] := by
        rw [hmbucketw]
        exact hWE.1
      have hmdist : distMS hmid = d ::ₘ distMS h := by
        unfold distMS
        rw [hm_dist]
        exact distMSl_set_append h.distances d x hd
      have hrw : h.worst < hmid.distances.length := by
        rw [hmlen]
        exact hIw
      have hrdist : distMS hmid = h.worst ::ₘ distMS rem := by
        have := distMSl_set_dropLast hmid.distances h.worst hrw hmbwne
        unfold distMS
        rw [hr_dist, hm_worst]
        exact this
      have hremdist : distMS rem = d ::ₘ (distMS h).erase h.worst := by
        have h1 : distMS rem = (distMS hmid).erase h.worst := by
          rw [hrdist, Multiset.erase_cons_head]
        rw [h1, hmdist, Multiset.erase_cons_tail (distMS h) hdnw]
      have hmtotal : totalCount hmid.distances = totalCount h.distances + 1 := by
        rw [hm_dist]
        exact totalCount_set_append h.distances d x hd
      have hrtotal : totalCount rem.distances = totalCount h.distances := by
        have h2 := totalCount_set_dropLast hmid.distances h.worst hrw hmbwne
        rw [← hm_worst] at h2
        rw [← hr_dist] at h2
        omega
      have hrbucketd : rem.distances.getD d [] = (h.distances.getD d []) ++ [x] := by
        rw [hr_dist, getD_set_ne hmid.distances hmid.worst d _ (by omega),
          hm_dist, getD_set_self h.distances d _ hd]
      have hrbdne : rem.distances.getD d [] ≠ [] := by
        rw [hrbucketd]
        simp
      have hrwlt : rem.worst < rem.distances.length := by
        rw [hr_worst, hrlen]
        exact hIw
      obtain ⟨hle, hnew, hmax⟩ := update_worst_worst_found rem hrwlt d
        (by rw [hr_worst]; omega) hrbdne
      have habove : ∀ m, h.worst < m → rem.distances.getD m [] = [] := by
        intro m hm
        rw [hr_dist, getD_set_ne hmid.distances hmid.worst m _ (by omega),
          hm_dist, getD_set_ne h.distances d m _ (by omega)]
        exact hWE.2 m hm
      rw [hrr] at hpac
      refine ⟨rem.update_worst, true, by rw [hpush, hpac], ?_, ?_, ?_, ?_, ?_, ?_, ?_⟩
      · refine ⟨?_, ?_, ?_, ?_, ?_, ?_, ?_⟩
        · simp only [update_worst_distances]
          omega
        · simp only [update_worst_cap]
          rw [hr_cap]
          exact hI.hk
        · simp only [update_worst_size, update_worst_distances]
          rw [hr_size, hrtotal]
          exact hIsize
        · simp only [update_worst_size, update_worst_cap]
          omega
        · simp only [update_worst_distances]
          have h3 : rem.update_worst.worst ≤ rem.worst := hle
          omega
        · intro _
          constructor
          · simp only [update_worst_distances]
            exact hnew
          · intro i hi
            simp only [update_worst_distances]
            rcases Nat.lt_or_ge h.worst i with h3 | h3
            · exact habove i h3
            · exact hmax i hi (by rw [hr_worst]; omega)
        · intro hcon
          simp only [update_worst_size, update_worst_cap] at hcon
          omega
      · simp only [update_worst_cap]
        exact hr_cap
      · simp only [update_worst_distances]
        exact hrlen
      · intro hc
        exact absurd hc (by omega)
      · intro _
        simp [hdw]
      · intro _ _
        refine ⟨?_, ?_, ?_⟩
        · simp only [update_worst_size]
          exact hr_size
        · have he : distMS rem.update_worst = distMS rem := by
            unfold distMS
            rw [update_worst_distances]
          rw [he, hremdist]
        · have h3 : rem.update_worst.worst ≤ rem.worst := hle
          omega
      · intro _ hcon
        exact absurd hdw hcon
    · -- rejected: distance not better than worst
      have hpac : h.push_at_cap d x = some (h, false) := by
        simp [FixedHammingHeap.push_at_cap, hdw]
      refine ⟨h, false, by rw [hpush, hpac], hI, rfl, rfl, ?_, ?_, ?_, ?_⟩
      · intro hc
        exact absurd hc (by omega)
      · intro _
        simp [hdw]
      · intro _ hcon
        exact absurd hcon hdw
      · intro _ _
        exact ⟨rfl, rfl⟩

/-! ## Helpers for `set_len`, `set_capacity`, `clear` -/

theorem totalCount_append (a b : List (List T)) :
    totalCount (a ++ b) = totalCount a + totalCount b := by
  simp [totalCount]

theorem totalCount_eq_zero (l : List (List T)) (hall : ∀ i, l.getD i [] = []) :
    totalCount l = 0 := by
  induction l with
  | nil => rfl
  | cons v rest ih =>
    have h0 : v = [] := hall 0
    rw [totalCount_cons, h0, ih (fun i => hall (i + 1))]
    rfl

theorem exists_nonempty_bucket (l : List (List T)) (hpos : 0 < totalCount l) :
    ∃ j, j < l.length ∧ l.getD j [] ≠ [] := by
  induction l with
  | nil => simp [totalCount] at hpos
  | cons v rest ih =>
    by_cases hv : v = []
    · rw [totalCount_cons, hv] at hpos
      obtain ⟨j, hj, hne⟩ := ih (by simpa using hpos)
      exact ⟨j + 1, by simpa using Nat.succ_lt_succ hj, by simpa using hne⟩
    · exact ⟨0, by simp, by simpa using hv⟩

theorem getD_clearseg_le (l : List (List T)) (e i : Nat) (hi : i ≤ e) :
    ((l.take (e + 1)).map (fun _ => ([] : List T)) ++ l.drop (e + 1)).getD i [] = [] := by
  rcases Nat.lt_or_ge i (min (e + 1) l.length) with hlt | hge
  · have hia : i < ((l.take (e + 1)).map (fun _ => ([] : List T))).length := by
      simpa using hlt
    rw [List.getD_eq_getElem?_getD, List.getElem?_append, if_pos hia, List.getElem?_map]
    have h2 : i < (l.take (e + 1)).length := by simpa using hlt
    rw [List.getElem?_eq_getElem h2]
    rfl
  · apply getD_eq_nil_of_le
    simp only [List.length_append, List.length_map, List.length_take, List.length_drop]
    omega

theorem getD_clearseg_gt (l : List (List T)) (e i : Nat) (hi : e < i) :
    ((l.take (e + 1)).map (fun _ => ([] : List T)) ++ l.drop (e + 1)).getD i [] =
      l.getD i [] := by
  rcases Nat.lt_or_ge i l.length with hlt | hge
  · have hel : e + 1 ≤ l.length := by omega
    have hlen1 : ((l.take (e + 1)).map (fun _ => ([] : List T))).length = e + 1 := by
      simp
      omega
    rw [List.getD_eq_getElem?_getD, List.getElem?_append_right (by rw [hlen1]; omega), hlen1,
      List.getElem?_drop]
    have he2 : e + 1 + (i - (e + 1)) = i := by omega
    rw [he2, List.getD_eq_getElem?_getD]
  · rw [getD_eq_nil_of_le l i hge, getD_eq_nil_of_le]
    simp only [List.length_append, List.length_map, List.length_take, List.length_drop]
    omega

theorem length_clearseg (l : List (List T)) (e : Nat) :
    ((l.take (e + 1)).map (fun _ => ([] : List T)) ++ l.drop (e + 1)).length = l.length := by
  simp only [List.length_append, List.length_map, List.length_take, List.length_drop]
  omega

theorem length_drainFront (l : List (List T)) (r : Nat) :
    (FixedHammingHeap.drainFront l r).length = l.length := by
  induction l generalizing r with
  | nil => rfl
  | cons v rest ih =>
    rw [FixedHammingHeap.drainFront]
    by_cases hc : r ≤ v.length
    · simp [hc]
    · simp [hc, ih]

theorem totalCount_drainFront (l : List (List T)) (r : Nat) (hr : r ≤ totalCount l) :
    totalCount (FixedHammingHeap.drainFront l r) = totalCount l - r := by
  induction l generalizing r with
  | nil => simp [totalCount, FixedHammingHeap.drainFront]
  | cons v rest ih =>
    rw [FixedHammingHeap.drainFront]
    by_cases hc : r ≤ v.length
    · rw [if_pos hc, totalCount_cons, totalCount_cons, List.length_take]
      omega
    · rw [if_neg hc, totalCount_cons, totalCount_cons]
      rw [totalCount_cons] at hr
      rw [ih (r - v.length) (by omega)]
      simp only [List.length_nil]
      omega

theorem totalCount_take_drop (l : List (List T)) (e : Nat) :
    totalCount l = totalCount (l.take (e + 1)) + totalCount (l.drop (e + 1)) := by
  conv_lhs => rw [← List.take_append_drop (e + 1) l]
  exact totalCount_append _ _

theorem getD_take (l : List (List T)) (e i : Nat) (hi : i < e + 1) :
    (l.take (e + 1)).getD i [] = l.getD i [] := by
  rw [List.getD_eq_getElem?_getD, List.getD_eq_getElem?_getD, List.getElem?_take_of_lt hi]

theorem getD_drop (l : List (List T)) (e i : Nat) :
    (l.drop (e + 1)).getD i [] = l.getD (e + 1 + i) [] := by
  rw [List.getD_eq_getElem?_getD, List.getD_eq_getElem?_getD, List.getElem?_drop]

/-! ## State specifications of the remaining operations -/

theorem above_endIdx_empty (h : FixedHammingHeap T) (hI : FInv h) :
    ∀ i, h.endIdx < i → h.distances.getD i [] = [] := by
  intro i hi
  unfold FixedHammingHeap.endIdx at hi
  by_cases hfull : h.size = h.cap
  · rw [if_pos hfull] at hi
    exact (hI.hfull hfull).2 i hi
  · rw [if_neg hfull] at hi
    apply getD_eq_nil_of_le
    omega

theorem totalCount_take_endIdx (h : FixedHammingHeap T) (hI : FInv h) :
    totalCount (h.distances.take (h.endIdx + 1)) = totalCount h.distances := by
  have hsplit := totalCount_take_drop h.distances h.endIdx
  have hdrop : totalCount (h.distances.drop (h.endIdx + 1)) = 0 := by
    apply totalCount_eq_zero
    intro i
    rw [getD_drop]
    exact above_endIdx_empty h hI (h.endIdx + 1 + i) (by omega)
  omega

/-- A state with `size < cap` and `worst` at the maximum satisfies the
invariant outright. -/
theorem open_state_FInv (g : FixedHammingHeap T) (hglen : 1 ≤ g.distances.length)
    (hgw : g.worst = g.distances.length - 1)
    (hgsize : g.size = totalCount g.distances) (hlt : g.size < g.cap) : FInv g := by
  refine ⟨hglen, by omega, hgsize, by omega, by omega, ?_, fun _ => hgw⟩
  intro hcon
  omega

/-- Recomputing `worst` from the top of a just-filled state restores the
invariant. -/
theorem full_update_FInv (g : FixedHammingHeap T) (hglen : 1 ≤ g.distances.length)
    (hgw : g.worst = g.distances.length - 1)
    (hgsize : g.size = totalCount g.distances) (hgcap : g.size = g.cap)
    (hcap1 : 1 ≤ g.cap) : FInv g.update_worst := by
  have hpos : 0 < totalCount g.distances := by omega
  obtain ⟨j, hj, hne⟩ := exists_nonempty_bucket g.distances hpos
  obtain ⟨hle, hnew, hmax⟩ := update_worst_worst_found g (by omega) j (by omega) hne
  refine ⟨?_, ?_, ?_, ?_, ?_, ?_, ?_⟩
  · simpa using hglen
  · simpa using hcap1
  · simp only [update_worst_size, update_worst_distances]
    exact hgsize
  · simp only [update_worst_size, update_worst_cap]
    omega
  · simp only [update_worst_distances]
    omega
  · intro _
    constructor
    · simp only [update_worst_distances]
      exact hnew
    · intro i hi
      simp only [update_worst_distances]
      rcases Nat.lt_or_ge i g.distances.length with h2 | h2
      · exact hmax i hi (by omega)
      · exact getD_eq_nil_of_le _ _ h2
  · intro hcon
    simp only [update_worst_size, update_worst_cap] at hcon
    omega

theorem set_len_zero_spec (h : FixedHammingHeap T) (hI : FInv h) :
    (h.set_len 0).cap = h.cap ∧ (h.set_len 0).size = 0 ∧
      (h.set_len 0).worst = h.distances.length - 1 ∧
      (h.set_len 0).distances.length = h.distances.length ∧
      (∀ i, (h.set_len 0).distances.getD i [] = []) ∧
      totalCount (h.set_len 0).distances = 0 := by
  have hform : h.set_len 0 =
      { h with
        distances :=
          (h.distances.take (h.endIdx + 1)).map (fun _ => []) ++ h.distances.drop (h.endIdx + 1),
        size := 0,
        worst := h.distances.length - 1 } := by
    unfold FixedHammingHeap.set_len
    rw [if_pos rfl]
  have hall : ∀ i, (h.set_len 0).distances.getD i [] = [] := by
    intro i
    rw [hform]
    show ((h.distances.take (h.endIdx + 1)).map (fun _ => []) ++
      h.distances.drop (h.endIdx + 1)).getD i [] = []
    rcases le_or_lt i h.endIdx with hle | hgt
    · exact getD_clearseg_le h.distances h.endIdx i hle
    · rw [getD_clearseg_gt h.distances h.endIdx i hgt]
      exact above_endIdx_empty h hI i hgt
  refine ⟨by rw [hform], by rw [hform], by rw [hform], ?_, hall, totalCount_eq_zero _ hall⟩
  rw [hform]
  show ((h.distances.take (h.endIdx + 1)).map (fun _ => []) ++
    h.distances.drop (h.endIdx + 1)).length = h.distances.length
  exact length_clearseg h.distances h.endIdx

theorem FInv_set_len_zero (h : FixedHammingHeap T) (hI : FInv h) : FInv (h.set_len 0) := by
  obtain ⟨hcap, hsize, hworst, hlen, hall, htot⟩ := set_len_zero_spec h hI
  have hk := hI.hk
  have hD := hI.hD
  refine ⟨by omega, by omega, by omega, by omega, by omega, ?_, fun _ => by omega⟩
  intro hcon
  omega

theorem set_len_trim_spec (h : FixedHammingHeap T) (hI : FInv h) (n : Nat) (h0 : 0 < n)
    (hlt : n < h.size) :
    (h.set_len n).cap = h.cap ∧ (h.set_len n).size = n ∧
      (h.set_len n).worst = h.distances.length - 1 ∧
      (h.set_len n).distances.length = h.distances.length ∧
      totalCount (h.set_len n).distances = n := by
  have hform : h.set_len n =
      { h with
        distances :=
          FixedHammingHeap.drainFront (h.distances.take (h.endIdx + 1)) (h.size - n) ++
            h.distances.drop (h.endIdx + 1),
        worst := h.distances.length - 1,
        size := n } := by
    unfold FixedHammingHeap.set_len
    rw [if_neg (by omega), if_pos hlt]
  have htake : totalCount (h.distances.take (h.endIdx + 1)) = h.size := by
    rw [totalCount_take_endIdx h hI]
    exact hI.hsize.symm
  have htot : totalCount (h.set_len n).distances = n := by
    rw [hform]
    show totalCount (FixedHammingHeap.drainFront (h.distances.take (h.endIdx + 1)) (h.size - n) ++
      h.distances.drop (h.endIdx + 1)) = n
    have hdroptot : totalCount (h.distances.drop (h.endIdx + 1)) = 0 := by
      have := totalCount_take_drop h.distances h.endIdx
      have hs := hI.hsize
      omega
    rw [totalCount_append,
      totalCount_drainFront (h.distances.take (h.endIdx + 1)) (h.size - n) (by omega), htake,
      hdroptot]
    omega
  have hlen : (h.set_len n).distances.length = h.distances.length := by
    rw [hform]
    show (FixedHammingHeap.drainFront (h.distances.take (h.endIdx + 1)) (h.size - n) ++
      h.distances.drop (h.endIdx + 1)).length = h.distances.length
    rw [List.length_append, length_drainFront, List.length_take, List.length_drop]
    omega
  exact ⟨by rw [hform], by rw [hform], by rw [hform], hlen, htot⟩

theorem FInv_set_len_trim (h : FixedHammingHeap T) (hI : FInv h) (n : Nat) (h0 : 0 < n)
    (hlt : n < h.size) : FInv (h.set_len n) := by
  obtain ⟨hcap, hsize, hworst, hlen, htot⟩ := set_len_trim_spec h hI n h0 hlt
  have hD := hI.hD
  have hsc := hI.hsc
  have hk := hI.hk
  refine ⟨by omega, by omega, by omega, by omega, by omega, ?_, fun _ => by omega⟩
  intro hcon
  omega

theorem set_len_noop (h : FixedHammingHeap T) (n : Nat) (h0 : n ≠ 0) (hge : ¬ n < h.size) :
    h.set_len n = h := by
  unfold FixedHammingHeap.set_len
  rw [if_neg h0, if_neg hge]

/-- Unfolding of `set_capacity` past its assertion. -/
theorem set_capacity_eval (h : FixedHammingHeap T) (c : Nat) (hc0 : c ≠ 0) :
    h.set_capacity c = some (
      if (h.set_len c).size = c then
        FixedHammingHeap.update_worst
          ⟨c, (h.set_len c).size, (h.set_len c).distances.length - 1, (h.set_len c).distances⟩
      else
        ⟨c, (h.set_len c).size, (h.set_len c).distances.length - 1, (h.set_len c).distances⟩) := by
  unfold FixedHammingHeap.set_capacity
  rw [if_neg hc0]

theorem set_capacity_spec (h : FixedHammingHeap T) (hI : FInv h) (c : Nat) (hc : 1 ≤ c) :
    ∃ h1, h.set_capacity c = some h1 ∧ FInv h1 ∧ h1.cap = c ∧
      h1.distances.length = h.distances.length ∧ h1.size = min c h.size := by
  have hc0 : c ≠ 0 := by omega
  have hD := hI.hD
  by_cases hcs : c < h.size
  · -- the new capacity trims the heap; it then sits exactly at the new cap
    obtain ⟨hcap, hsize, hworst, hlen, htot⟩ := set_len_trim_spec h hI c (by omega) hcs
    rw [set_capacity_eval h c hc0, if_pos hsize]
    refine ⟨_, rfl, ?_, ?_, ?_, ?_⟩
    · apply full_update_FInv
      · show 1 ≤ (h.set_len c).distances.length
        omega
      · rfl
      · show (h.set_len c).size = totalCount (h.set_len c).distances
        omega
      · exact hsize
      · exact hc
    · simp only [update_worst_cap]
    · simp only [update_worst_distances]
      show (h.set_len c).distances.length = h.distances.length
      omega
    · simp only [update_worst_size]
      show (h.set_len c).size = min c h.size
      omega
  · -- capacity at least the current size: set_len is a no-op
    have hnoop : h.set_len c = h := set_len_noop h c hc0 hcs
    by_cases hfull : (h.set_len c).size = c
    · rw [set_capacity_eval h c hc0, if_pos hfull]
      rw [hnoop] at hfull ⊢
      refine ⟨_, rfl, ?_, ?_, ?_, ?_⟩
      · apply full_update_FInv
        · show 1 ≤ h.distances.length
          omega
        · rfl
        · exact hI.hsize
        · exact hfull
        · exact hc
      · simp only [update_worst_cap]
      · simp only [update_worst_distances]
      · simp only [update_worst_size]
        show h.size = min c h.size
        omega
    · rw [set_capacity_eval h c hc0, if_neg hfull]
      rw [hnoop] at hfull ⊢
      refine ⟨_, rfl, ?_, rfl, rfl, ?_⟩
      · apply open_state_FInv
        · show 1 ≤ h.distances.length
          omega
        · rfl
        · exact hI.hsize
        · show h.size < c
          omega
      · show h.size = min c h.size
        omega

theorem clear_eq_set_len_zero (h : FixedHammingHeap T) (hlen0 : h.distances.length ≠ 0) :
    h.clear = some (h.set_len 0) := by
  unfold FixedHammingHeap.clear FixedHammingHeap.set_len
  rw [if_neg hlen0, if_pos rfl]

theorem clear_spec (h : FixedHammingHeap T) (hI : FInv h) :
    ∃ h1, h.clear = some h1 ∧ FInv h1 ∧ h1.cap = h.cap ∧ h1.size = 0 ∧
      h1.worst = h.distances.length - 1 ∧ h1.distances.length = h.distances.length ∧
      ∀ i, h1.distances.getD i [] = [] := by
  have hD := hI.hD
  obtain ⟨hcap, hsize, hworst, hlen, hall, htot⟩ := set_len_zero_spec h hI
  exact ⟨h.set_len 0, clear_eq_set_len_zero h (by omega), FInv_set_len_zero h hI,
    hcap, hsize, hworst, hlen, hall⟩

theorem configure_eq (D k : Nat) (hk : k ≠ 0) :
    configure T D k = some ⟨k, 0, D - 1, List.replicate D []⟩ := by
  unfold configure
  have h1 : (FixedHammingHeap.new.set_distances D : FixedHammingHeap T).set_len k =
      FixedHammingHeap.new.set_distances D := by
    apply set_len_noop
    · exact hk
    · show ¬ k < (0 : Nat)
      omega
  rw [set_capacity_eval _ k hk, h1]
  have h2 : ¬ ((FixedHammingHeap.new.set_distances D : FixedHammingHeap T).size = k) := by
    show ¬ ((0 : Nat) = k)
    omega
  rw [if_neg h2]
  show some (⟨k, 0, (List.replicate D ([] : List T)).length - 1,
    List.replicate D []⟩ : FixedHammingHeap T) =
    some (⟨k, 0, D - 1, List.replicate D []⟩ : FixedHammingHeap T)
  rw [List.length_replicate]

theorem FInv_configure (D k : Nat) (hD : 1 ≤ D) (hk : 1 ≤ k) :
    FInv (⟨k, 0, D - 1, List.replicate D []⟩ : FixedHammingHeap T) := by
  have htot : totalCount (List.replicate D ([] : List T)) = 0 := by
    apply totalCount_eq_zero
    intro i
    rcases Nat.lt_or_ge i D with hi | hi
    · rw [List.getD_eq_getElem?_getD, List.getElem?_replicate]
      simp [hi]
    · exact getD_eq_nil_of_le _ _ (by simpa using hi)
  refine ⟨?_, hk, ?_, by simp only; omega, ?_, ?_, fun _ => ?_⟩
  · simp only [List.length_replicate]
    omega
  · simp only [htot]
  · simp only [List.length_replicate]
    omega
  · intro hcon
    simp only at hcon
    omega
  · simp only [List.length_replicate]

/-! ## The invariant is preserved by every API call -/

theorem FInv_applyFOp (h : FixedHammingHeap T) (hI : FInv h) (op : FOp T)
    (h1 : FixedHammingHeap T) (happ : applyFOp h op = some h1) :
    FInv h1 ∧ h1.distances.length = h.distances.length := by
  cases op with
  | pushOp d x =>
    simp only [applyFOp] at happ
    by_cases hd : d < h.distances.length
    · obtain ⟨h2, b, hpush, hI2, hcap, hlen, _⟩ := push_spec h d x hI hd
      rw [hpush] at happ
      simp only [Option.map_some', Option.some.injEq] at happ
      rw [← happ]
      exact ⟨hI2, hlen⟩
    · by_cases hfull : h.size = h.cap
      · have hw := hI.hw
        have hpcc : h.push d x = some (h, false) := by
          unfold FixedHammingHeap.push FixedHammingHeap.push_at_cap
          rw [if_neg (by omega : ¬ h.size ≠ h.cap), if_neg (by omega : ¬ d < h.worst)]
        rw [hpcc] at happ
        simp only [Option.map_some', Option.some.injEq] at happ
        rw [← happ]
        exact ⟨hI, rfl⟩
      · have hpcc : h.push d x = none := by
          unfold FixedHammingHeap.push
          rw [if_pos hfull, if_neg hd]
        rw [hpcc] at happ
        simp at happ
  | setLenOp n =>
    simp only [applyFOp, Option.some.injEq] at happ
    rw [← happ]
    by_cases h0 : n = 0
    · rw [h0]
      obtain ⟨_, _, _, hlen, _, _⟩ := set_len_zero_spec h hI
      exact ⟨FInv_set_len_zero h hI, hlen⟩
    · by_cases hlt : n < h.size
      · obtain ⟨_, _, _, hlen, _⟩ := set_len_trim_spec h hI n (by omega) hlt
        exact ⟨FInv_set_len_trim h hI n (by omega) hlt, hlen⟩
      · rw [set_len_noop h n h0 hlt]
        exact ⟨hI, rfl⟩
  | setCapOp c =>
    simp only [applyFOp] at happ
    by_cases hc0 : c = 0
    · rw [hc0] at happ
      unfold FixedHammingHeap.set_capacity at happ
      simp at happ
    · obtain ⟨h2, heval, hI2, _, hlen, _⟩ := set_capacity_spec h hI c (by omega)
      rw [heval] at happ
      simp only [Option.some.injEq] at happ
      rw [← happ]
      exact ⟨hI2, hlen⟩
  | clearOp =>
    simp only [applyFOp] at happ
    obtain ⟨h2, heval, hI2, _, _, _, hlen, _⟩ := clear_spec h hI
    rw [heval] at happ
    simp only [Option.some.injEq] at happ
    rw [← happ]
    exact ⟨hI2, hlen⟩

theorem FInv_applyFOps (ops : List (FOp T)) :
    ∀ h h1, FInv h → applyFOps h ops = some h1 →
      FInv h1 ∧ h1.distances.length = h.distances.length := by
  induction ops with
  | nil =>
    intro h h1 hI happ
    simp only [applyFOps, Option.some.injEq] at happ
    rw [← happ]
    exact ⟨hI, rfl⟩
  | cons op rest ih =>
    intro h h1 hI happ
    simp only [applyFOps] at happ
    cases hop : applyFOp h op with
    | none =>
      rw [hop] at happ
      simp at happ
    | some h2 =>
      rw [hop] at happ
      simp only at happ
      obtain ⟨hI2, hlen2⟩ := FInv_applyFOp h hI op h2 hop
      obtain ⟨hI1, hlen1⟩ := ih h2 h1 hI2 happ
      exact ⟨hI1, by omega⟩

/-! ## `fill_slice` under the invariant -/

theorem length_flatten_totalCount (l : List (List T)) :
    l.flatten.length = totalCount l := by
  simp [totalCount]

theorem fill_slice_eq (h : FixedHammingHeap T) (hI : FInv h) (buf : List T)
    (hbuf : h.size ≤ buf.length) :
    h.fill_slice buf = (h.distances.take (h.endIdx + 1)).flatten := by
  have hflen : ((h.distances.take (h.endIdx + 1)).flatten).length = h.size := by
    rw [length_flatten_totalCount, totalCount_take_endIdx h hI, ← hI.hsize]
  have htf : min buf.length h.size = h.size := by omega
  show (((h.distances.take (h.endIdx + 1)).flatten.take (min buf.length h.size)) ++
      buf.drop
        (((h.distances.take (h.endIdx + 1)).flatten.take (min buf.length h.size)).length)).take
      (min buf.length h.size) = (h.distances.take (h.endIdx + 1)).flatten
  rw [htf]
  have htake : (h.distances.take (h.endIdx + 1)).flatten.take h.size =
      (h.distances.take (h.endIdx + 1)).flatten := by
    rw [← hflen]
    exact List.take_length _
  rw [htake]
  exact List.take_left' hflen

theorem fill_slice_length (h : FixedHammingHeap T) (hI : FInv h) (buf : List T)
    (hbuf : h.size ≤ buf.length) :
    (h.fill_slice buf).length = h.size := by
  rw [fill_slice_eq h hI buf hbuf, length_flatten_totalCount, totalCount_take_endIdx h hI,
    ← hI.hsize]

/-! ## Claim theorems about `FixedHammingHeap` state -/

/-- C7: for a `FixedHammingHeap` configured with `D` distances and capacity
`k ≥ 1`, after any sequence of API calls that does not panic, whenever
`size < cap` the `worst` watermark equals `D - 1`, the maximum possible
distance (so every in-range push is accepted until the heap is full again). -/
theorem claim_C7_worst_max_below_cap {T : Type} (D k : Nat) (hD : 1 ≤ D) (hk : 1 ≤ k)
    (h0 h1 : FixedHammingHeap T) (ops : List (FOp T))
    (hcfg : configure T D k = some h0) (happ : applyFOps h0 ops = some h1)
    (hlt : h1.size < h1.cap) : h1.worst = D - 1 := by
  rw [configure_eq D k (by omega)] at hcfg
  have h0eq : h0 = ⟨k, 0, D - 1, List.replicate D []⟩ := by
    injection hcfg with hh
    exact hh.symm
  have hI0 : FInv h0 := by
    rw [h0eq]
    exact FInv_configure D k hD hk
  obtain ⟨hI1, hlen⟩ := FInv_applyFOps ops h0 h1 hI0 happ
  have hlen0 : h0.distances.length = D := by
    rw [h0eq]
    simp
  rw [hI1.hopen hlt, hlen, hlen0]

/-- C10: for a configured `FixedHammingHeap`, after any panic-free sequence of
`push`, `set_len`, `set_capacity` and `clear` calls, `len()` equals the total
number of items stored across all buckets, and `fill_slice` with a buffer of
at least that length writes exactly `len()` items. -/
theorem claim_C10_len_is_item_count {T : Type} (D k : Nat) (hD : 1 ≤ D) (hk : 1 ≤ k)
    (h0 h1 : FixedHammingHeap T) (ops : List (FOp T))
    (hcfg : configure T D k = some h0) (happ : applyFOps h0 ops = some h1) :
    h1.len = totalCount h1.distances ∧
      ∀ buf : List T, h1.len ≤ buf.length → (h1.fill_slice buf).length = h1.len := by
  rw [configure_eq D k (by omega)] at hcfg
  have h0eq : h0 = ⟨k, 0, D - 1, List.replicate D []⟩ := by
    injection hcfg with hh
    exact hh.symm
  have hI0 : FInv h0 := by
    rw [h0eq]
    exact FInv_configure D k hD hk
  obtain ⟨hI1, _⟩ := FInv_applyFOps ops h0 h1 hI0 happ
  exact ⟨hI1.hsize, fun buf hbuf => fill_slice_length h1 hI1 buf hbuf⟩

/-- C9: pushing any distance into a default-constructed (unconfigured)
`FixedHammingHeap` returns `false` without panicking and leaves the structure
unchanged: `size == cap == 0` routes to the full-state path, whose
`d < worst = 0` test is false for every distance. -/
theorem claim_C9_default_push_rejects (T : Type) (d : Nat) (x : T) :
    FixedHammingHeap.push (FixedHammingHeap.new : FixedHammingHeap T) d x =
      some (FixedHammingHeap.new, false) := by
  unfold FixedHammingHeap.push FixedHammingHeap.push_at_cap FixedHammingHeap.new
  simp

/-- C6: on a full configured heap (`size == cap > 0`), `push` keeps the item
iff `d < worst`; on acceptance it adds one item at distance `d`, removes one
at the old `worst`, keeps `size` unchanged, and the recomputed `worst` is
again the exact maximum non-empty bucket index, no larger than before; on
rejection the state is untouched and `false` is returned. Moreover a push
that makes `size` reach `cap` leaves `worst` at the exact maximum non-empty
bucket index. -/
theorem claim_C6_full_push {T : Type} : (∀ h : FixedHammingHeap T, FInv h → h.size = h.cap →
      ∀ d x, d < h.distances.length →
      ∃ h1 b, h.push d x = some (h1, b) ∧ (b = true ↔ d < h.worst) ∧
        (b = true → h1.size = h.size ∧ distMS h1 = d ::ₘ (distMS h).erase h.worst ∧
          WorstExact h1 ∧ h1.worst ≤ h.worst) ∧
        (b = false → h1 = h)) ∧
    (∀ h : FixedHammingHeap T, FInv h → h.size + 1 = h.cap →
      ∀ d x, d < h.distances.length →
      ∃ h1, h.push d x = some (h1, true) ∧ h1.size = h.cap ∧ WorstExact h1) := by
  constructor
  · intro h hI hfull d x hd
    obtain ⟨h1, b, hpush, hI1, hcap, hlen, _, hiff, hacc, hrej⟩ := push_spec h d x hI hd
    refine ⟨h1, b, hpush, hiff hfull, ?_, ?_⟩
    · intro hb
      have hdw : d < h.worst := (hiff hfull).mp hb
      obtain ⟨hs, hms, hw⟩ := hacc hfull hdw
      refine ⟨hs, hms, ?_, hw⟩
      apply hI1.hfull
      rw [hs, hcap, ← hfull]
    · intro hb
      have hndw : ¬ d < h.worst := by
        intro hdw
        rw [(hiff hfull).mpr hdw] at hb
        simp at hb
      exact (hrej hfull hndw).1
  · intro h hI hfill d x hd
    have hlt : h.size < h.cap := by omega
    obtain ⟨h1, b, hpush, hI1, hcap, hlen, hopen2, _, _, _⟩ := push_spec h d x hI hd
    obtain ⟨hb, hs, _⟩ := hopen2 hlt
    rw [hb] at hpush
    have hfull1 : h1.size = h1.cap := by omega
    exact ⟨h1, hpush, by omega, hI1.hfull hfull1⟩

/-- Witness for C6 at a concrete full heap (`D = 2`, `cap = 1`, one item at
distance 0): pushing distance 1 is rejected and pushing into a nearly-full
heap makes `worst` exact. -/
theorem claim_C6_full_push_witness :
    ∃ h1 b, FixedHammingHeap.push (⟨1, 1, 0, [[7], []]⟩ : FixedHammingHeap Nat) 1 42 =
      some (h1, b) ∧ (b = true ↔ (1 : Nat) < 0) := by
  have hI : FInv (⟨1, 1, 0, [[7], []]⟩ : FixedHammingHeap Nat) := by
    refine ⟨by decide, by decide, by decide, by decide, by decide, ?_, ?_⟩
    · intro _
      refine ⟨by decide, ?_⟩
      intro i hi
      match i with
      | 1 => rfl
      | n + 2 => rfl
    · intro hcon
      simp only at hcon
      omega
  obtain ⟨h1, b, hp, hiff, _, _⟩ :=
    (claim_C6_full_push (T := Nat)).1 ⟨1, 1, 0, [[7], []]⟩ hI rfl 1 42 (by decide)
  exact ⟨h1, b, hp, hiff⟩

/-! ## Pair-multiset lemmas -/

theorem length_pairListFrom (i : Nat) (l : List (List T)) :
    (pairListFrom i l).length = totalCount l := by
  induction l generalizing i with
  | nil => simp [pairListFrom, totalCount]
  | cons v rest ih => simp [pairListFrom, totalCount_cons, ih]

theorem getD_empty_of_totalCount_zero (l : List (List T)) (htot : totalCount l = 0) :
    ∀ i, l.getD i [] = [] := by
  induction l with
  | nil => intro i; rfl
  | cons v rest ih =>
    rw [totalCount_cons] at htot
    intro i
    cases i with
    | zero =>
      rw [List.getD_cons_zero]
      exact List.length_eq_zero.mp (by omega)
    | succ i =>
      rw [List.getD_cons_succ]
      exact ih (by omega) i

theorem pairListFrom_set_append (l : List (List T)) (i d : Nat) (x : T) (hd : d < l.length) :
    List.Perm (pairListFrom i (l.set d (l.getD d [] ++ [x])))
      ((i + d, x) :: pairListFrom i l) := by
  induction l generalizing i d with
  | nil => simp at hd
  | cons v rest ih =>
    cases d with
    | zero =>
      simp only [List.set_cons_zero, List.getD_cons_zero, pairListFrom, Nat.add_zero]
      rw [List.map_append]
      simp only [List.map_cons, List.map_nil, List.append_assoc]
      exact List.perm_middle
    | succ d =>
      simp only [List.set_cons_succ, List.getD_cons_succ, pairListFrom]
      have hperm := List.Perm.append_left (v.map (fun x => (i, x)))
        (ih (i + 1) d (by simpa using hd))
      have he : i + 1 + d = i + (d + 1) := by omega
      rw [he] at hperm
      exact hperm.trans List.perm_middle

theorem pairListFrom_set_dropLast (l : List (List T)) (i d : Nat) (y : T) (hd : d < l.length)
    (hy : (l.getD d []).getLast? = some y) :
    List.Perm (pairListFrom i l)
      ((i + d, y) :: pairListFrom i (l.set d (l.getD d []).dropLast)) := by
  induction l generalizing i d with
  | nil => simp at hd
  | cons v rest ih =>
    cases d with
    | zero =>
      simp only [List.getD_cons_zero] at hy
      simp only [List.set_cons_zero, List.getD_cons_zero, pairListFrom, Nat.add_zero]
      conv_lhs => rw [← List.dropLast_append_getLast? y hy]
      rw [List.map_append]
      simp only [List.map_cons, List.map_nil, List.append_assoc]
      exact List.perm_middle
    | succ d =>
      simp only [List.getD_cons_succ] at hy
      simp only [List.set_cons_succ, List.getD_cons_succ, pairListFrom]
      have hperm := List.Perm.append_left (v.map (fun x => (i, x)))
        (ih (i + 1) d (by simpa using hd) hy)
      refine hperm.trans ?_
      have he : i + 1 + d = i + (d + 1) := by omega
      rw [he]
      exact List.perm_middle

/-- Among the buckets from `b` up to `b + k`, if one is non-empty there is a
least non-empty one. -/
theorem least_nonempty (l : List (List T)) :
    ∀ k b, (∃ j, b ≤ j ∧ j ≤ b + k ∧ l.getD j [] ≠ []) →
      ∃ j, b ≤ j ∧ l.getD j [] ≠ [] ∧ ∀ m, b ≤ m → m < j → l.getD m [] = [] := by
  intro k
  induction k with
  | zero =>
    rintro b ⟨j, h1, h2, h3⟩
    have hj : j = b := by omega
    subst hj
    exact ⟨j, Nat.le_refl _, h3, fun m hm1 hm2 => by omega⟩
  | succ k ih =>
    rintro b ⟨j, h1, h2, h3⟩
    by_cases hbempty : l.getD b [] = []
    · have hjb : j ≠ b := by
        intro hc
        exact h3 (hc ▸ hbempty)
      obtain ⟨j2, g1, g2, g3⟩ := ih (b + 1) ⟨j, by omega, by omega, h3⟩
      refine ⟨j2, by omega, g2, ?_⟩
      intro m hm1 hm2
      rcases Nat.lt_or_ge m (b + 1) with hm3 | hm3
      · have : m = b := by omega
        rw [this]
        exact hbempty
      · exact g3 m hm3 hm2
    · exact ⟨b, Nat.le_refl _, hbempty, fun m hm1 hm2 => by omega⟩

/-! ## `HammingHeap128`: pushes -/

namespace HammingHeap128

theorem push_eq (h : HammingHeap128 T) (d : Nat) (x : T) (hd : d < 129) :
    h.push d x = some ⟨h.distances.set d ((h.distances.getD d []) ++ [x]),
      if d < h.best then d else h.best⟩ := by
  unfold push
  rw [if_pos hd]

theorem pushList_spec (ps : List (Nat × T)) :
    ∀ h : HammingHeap128 T, h.distances.length = 129 → (∀ p ∈ ps, p.1 ≤ 128) →
      ∃ h1, h.pushList ps = some h1 ∧ h1.best ≤ h.best ∧ h1.distances.length = 129 ∧
        (pairListFrom 0 h1.distances : Multiset (Nat × T)) =
          (pairListFrom 0 h.distances : Multiset (Nat × T)) + (ps : Multiset (Nat × T)) ∧
        ∀ i, h1.distances.getD i [] =
          h.distances.getD i [] ++ (ps.filter (fun p => p.1 == i)).map Prod.snd := by
  induction ps with
  | nil =>
    intro h hlen hall
    exact ⟨h, rfl, Nat.le_refl _, hlen, by simp, fun i => by simp⟩
  | cons p rest ih =>
    intro h hlen hall
    obtain ⟨d, x⟩ := p
    have hd : d < 129 := by
      have := hall (d, x) (by simp)
      simpa using Nat.lt_succ_of_le this
    have hstep := push_eq h d x hd
    obtain ⟨h2, hh2⟩ : ∃ h2 : HammingHeap128 T,
        h2 = ⟨h.distances.set d ((h.distances.getD d []) ++ [x]),
          if d < h.best then d else h.best⟩ := ⟨_, rfl⟩
    have h2len : h2.distances.length = 129 := by
      rw [hh2]
      simpa using hlen
    obtain ⟨h1, hrun, hbest, h1len, hms, hbuckets⟩ :=
      ih h2 h2len (fun q hq => hall q (by simp [hq]))
    have hstepms : (pairListFrom 0 h2.distances : Multiset (Nat × T)) =
        (d, x) ::ₘ (pairListFrom 0 h.distances : Multiset (Nat × T)) := by
      have hperm := pairListFrom_set_append h.distances 0 d x (by omega)
      have hcoe := Multiset.coe_eq_coe.mpr hperm
      have hd2 : h2.distances = h.distances.set d (h.distances.getD d [] ++ [x]) := by
        rw [hh2]
      rw [hd2, hcoe, ← Multiset.cons_coe]
      simp
    refine ⟨h1, ?_, ?_, h1len, ?_, ?_⟩
    · show HammingHeap128.pushList h ((d, x) :: rest) = some h1
      unfold pushList
      rw [hstep, ← hh2]
      exact hrun
    · refine le_trans hbest ?_
      rw [hh2]
      show (if d < h.best then d else h.best) ≤ h.best
      by_cases hc : d < h.best
      · rw [if_pos hc]
        omega
      · rw [if_neg hc]
    · rw [hms, hstepms]
      rw [← Multiset.cons_coe]
      rw [Multiset.cons_add]
      rw [Multiset.add_cons]
    · intro i
      rw [hbuckets i, hh2]
      by_cases hid : d = i
      · subst hid
        show (h.distances.set d (h.distances.getD d [] ++ [x])).getD d [] ++ _ = _
        rw [getD_set_self h.distances d _ (by omega)]
        have hfil : ((d, x) :: rest).filter (fun p => p.1 == d) =
            (d, x) :: rest.filter (fun p => p.1 == d) := by
          simp [List.filter_cons]
        rw [hfil]
        simp
      · show (h.distances.set d (h.distances.getD d [] ++ [x])).getD i [] ++ _ = _
        rw [getD_set_ne h.distances d i _ hid]
        have hfil : ((d, x) :: rest).filter (fun p => p.1 == i) =
            rest.filter (fun p => p.1 == i) := by
          simp [List.filter_cons, hid]
        rw [hfil]

end HammingHeap128

/-! ## `HammingHeap128`: the pop scan -/

namespace HammingHeap128

theorem popAux_all_empty (l : List (List T)) :
    ∀ fuel b, 128 ≤ b + fuel → b ≤ 128 → (∀ j, b ≤ j → l.getD j [] = []) →
      popAux l b = (none, (l, 128)) := by
  intro fuel
  induction fuel with
  | zero =>
    intro b h1 h2 hall
    have hb : b = 128 := by omega
    subst hb
    rw [popAux]
    rw [hall 128 (by omega)]
    rfl
  | succ fuel ih =>
    intro b h1 h2 hall
    by_cases hb : b = 128
    · subst hb
      rw [popAux]
      rw [hall 128 (by omega)]
      rfl
    · rw [popAux]
      rw [hall b (by omega)]
      show (if hb2 : b < 128 then popAux l (b + 1) else (none, (l, b))) = (none, (l, 128))
      rw [dif_pos (by omega)]
      exact ih (b + 1) (by omega) (by omega) (fun j hj => hall j (by omega))

theorem popAux_first_nonempty (l : List (List T)) :
    ∀ fuel b j, 128 ≤ b + fuel → b ≤ j → j ≤ 128 → l.getD j [] ≠ [] →
      (∀ m, b ≤ m → m < j → l.getD m [] = []) →
      ∃ y, (l.getD j []).getLast? = some y ∧
        popAux l b = (some (j, y), (l.set j (l.getD j []).dropLast, j)) := by
  intro fuel
  induction fuel with
  | zero =>
    intro b j h1 h2 h3 hne hbelow
    have hb : b = 128 := by omega
    have hj : j = 128 := by omega
    subst hb
    subst hj
    cases hy : (l.getD 128 []).getLast? with
    | none =>
      exact absurd (List.getLast?_eq_none_iff.mp hy) hne
    | some y =>
      refine ⟨y, rfl, ?_⟩
      rw [popAux, hy]
  | succ fuel ih =>
    intro b j h1 h2 h3 hne hbelow
    by_cases hbj : b = j
    · subst hbj
      cases hy : (l.getD b []).getLast? with
      | none =>
        exact absurd (List.getLast?_eq_none_iff.mp hy) hne
      | some y =>
        refine ⟨y, rfl, ?_⟩
        rw [popAux, hy]
    · have hblt : b < j := by omega
      have hbe : l.getD b [] = [] := hbelow b (by omega) hblt
      rw [popAux, hbe]
      show ∃ y, _ ∧ (if hb2 : b < 128 then popAux l (b + 1) else (none, (l, b))) = _
      rw [dif_pos (by omega)]
      exact ih (b + 1) j (by omega) (by omega) h3 hne (fun m hm1 hm2 => hbelow m (by omega) hm2)

end HammingHeap128

/-! ## `HammingHeap128`: draining the queue -/

namespace HammingHeap128

theorem drain_spec (n : Nat) :
    ∀ h : HammingHeap128 T, h.distances.length = 129 → h.best ≤ 128 →
      (∀ i, i < h.best → h.distances.getD i [] = []) → totalCount h.distances = n →
      (drainN n h).1.length = n ∧
      (∀ p ∈ (drainN n h).1, h.best ≤ p.1) ∧
      List.Sorted (· ≤ ·) ((drainN n h).1.map Prod.fst) ∧
      (pairListFrom 0 h.distances : Multiset (Nat × T)) =
        ((drainN n h).1 : Multiset (Nat × T)) ∧
      ((drainN n h).2.pop).1 = none := by
  induction n with
  | zero =>
    intro h hlen hb hbelow htot
    have hall := getD_empty_of_totalCount_zero h.distances htot
    have hpl : pairListFrom 0 h.distances = [] := by
      apply List.length_eq_zero.mp
      rw [length_pairListFrom]
      exact htot
    refine ⟨rfl, ?_, ?_, ?_, ?_⟩
    · intro p hp
      simp [drainN] at hp
    · simp [drainN]
    · show (pairListFrom 0 h.distances : Multiset (Nat × T)) = (([] : List (Nat × T)) : Multiset (Nat × T))
      rw [hpl]
    · have hd0 : (drainN 0 h).2 = h := rfl
      rw [hd0]
      unfold pop
      rw [popAux_all_empty h.distances 129 h.best (by omega) hb (fun j _ => hall j)]
  | succ n ih =>
    intro h hlen hb hbelow htot
    have hpos : 0 < totalCount h.distances := by omega
    obtain ⟨j0, hj0len, hj0ne⟩ := exists_nonempty_bucket h.distances hpos
    have hj0b : h.best ≤ j0 := by
      by_contra hc
      exact hj0ne (hbelow j0 (by omega))
    obtain ⟨j, hjb, hjne, hjleast⟩ :=
      least_nonempty h.distances (j0 - h.best) h.best ⟨j0, hj0b, by omega, hj0ne⟩
    have hjlt : j < 129 := by
      by_contra hge
      exact hjne (getD_eq_nil_of_le _ _ (by omega))
    obtain ⟨y, hy, hpop⟩ := popAux_first_nonempty h.distances 129 h.best j (by omega) hjb
      (by omega) hjne hjleast
    obtain ⟨h2, hh2⟩ : ∃ h2 : HammingHeap128 T,
        h2 = ⟨h.distances.set j (h.distances.getD j []).dropLast, j⟩ := ⟨_, rfl⟩
    have hpoph : h.pop = (some (j, y), h2) := by
      unfold pop
      rw [hpop, hh2]
    have hstep : drainN (n + 1) h = ((j, y) :: (drainN n h2).1, (drainN n h2).2) := by
      rw [drainN, hpoph]
    have h2len : h2.distances.length = 129 := by
      rw [hh2]
      simpa using hlen
    have h2b : h2.best ≤ 128 := by
      rw [hh2]
      show j ≤ 128
      omega
    have h2below : ∀ i, i < h2.best → h2.distances.getD i [] = [] := by
      intro i hi
      rw [hh2] at hi ⊢
      simp only at hi
      rw [getD_set_ne h.distances j i _ (by omega)]
      rcases Nat.lt_or_ge i h.best with hi2 | hi2
      · exact hbelow i hi2
      · exact hjleast i hi2 hi
    have h2tot : totalCount h2.distances = n := by
      have := totalCount_set_dropLast h.distances j (by omega) hjne
      rw [hh2]
      simp only
      omega
    obtain ⟨ihlen, ihmem, ihsorted, ihms, ihpop⟩ := ih h2 h2len h2b h2below h2tot
    refine ⟨?_, ?_, ?_, ?_, ?_⟩
    · rw [hstep]
      simp [ihlen]
    · intro p hp
      rw [hstep] at hp
      rcases List.mem_cons.mp hp with hp1 | hp2
      · rw [hp1]
        exact hjb
      · have := ihmem p hp2
        rw [hh2] at this
        simp only at this
        omega
    · rw [hstep]
      simp only [List.map_cons]
      rw [List.sorted_cons]
      refine ⟨?_, ihsorted⟩
      intro b hbmem
      obtain ⟨p, hp, hpb⟩ := List.mem_map.mp hbmem
      have := ihmem p hp
      rw [hh2] at this
      simp only at this
      omega
    · have hperm := pairListFrom_set_dropLast h.distances 0 j y (by omega) hy
      have hcoe := Multiset.coe_eq_coe.mpr hperm
      rw [hstep]
      show (pairListFrom 0 h.distances : Multiset (Nat × T)) =
        (((j, y) :: (drainN n h2).1 : List (Nat × T)) : Multiset (Nat × T))
      rw [hcoe]
      rw [← Multiset.cons_coe, ← Multiset.cons_coe]
      simp only [Nat.zero_add]
      congr 1
      have hd2 : h2.distances = h.distances.set j (h.distances.getD j []).dropLast := by
        rw [hh2]
      rw [hd2] at ihms
      exact ihms
    · rw [hstep]
      exact ihpop

end HammingHeap128

/-! ## `HammingHeap128`: the cursor invariant across arbitrary call sequences -/

namespace HammingHeap128

theorem new_length (T : Type) : (new : HammingHeap128 T).distances.length = 129 := by
  simp [new]

theorem HInv_new (T : Type) : HInv (new : HammingHeap128 T) :=
  ⟨new_length T, by simp [new], fun i hi => by simp [new] at hi⟩

theorem HInv_applyHOp (h : HammingHeap128 T) (hI : HInv h) (op : HOp T)
    (h1 : HammingHeap128 T) (happ : applyHOp h op = some h1) : HInv h1 := by
  cases op with
  | pushOp d x =>
    simp only [applyHOp] at happ
    by_cases hd : d < 129
    · rw [push_eq h d x hd] at happ
      simp only [Option.some.injEq] at happ
      rw [← happ]
      refine ⟨by simpa using hI.hlen, ?_, ?_⟩
      · show (if d < h.best then d else h.best) ≤ 128
        by_cases hc : d < h.best
        · rw [if_pos hc]
          omega
        · rw [if_neg hc]
          exact hI.hb
      · intro i hi
        show (h.distances.set d (h.distances.getD d [] ++ [x])).getD i [] = []
        simp only at hi
        by_cases hc : d < h.best
        · rw [if_pos hc] at hi
          rw [getD_set_ne h.distances d i _ (by omega)]
          exact hI.hbelow i (by omega)
        · rw [if_neg hc] at hi
          rw [getD_set_ne h.distances d i _ (by omega)]
          exact hI.hbelow i hi
    · unfold push at happ
      rw [if_neg hd] at happ
      simp at happ
  | popOp =>
    simp only [applyHOp, Option.some.injEq] at happ
    rw [← happ]
    by_cases hc : ∀ j, h.best ≤ j → h.distances.getD j [] = []
    · have hpop := popAux_all_empty h.distances 129 h.best (by omega) hI.hb hc
      have hpe : h.pop.2 = ⟨h.distances, 128⟩ := by
        unfold pop
        rw [hpop]
      rw [hpe]
      refine ⟨hI.hlen, Nat.le_refl 128, ?_⟩
      intro i hi
      have hi128 : i < 128 := hi
      show h.distances.getD i [] = []
      rcases Nat.lt_or_ge i h.best with hi2 | hi2
      · exact hI.hbelow i hi2
      · exact hc i hi2
    · push_neg at hc
      obtain ⟨j0, hj0b, hj0ne⟩ := hc
      obtain ⟨j, hjb, hjne, hjleast⟩ :=
        least_nonempty h.distances (j0 - h.best) h.best ⟨j0, hj0b, by omega, hj0ne⟩
      have hjlt : j < 129 := by
        by_contra hge
        exact hjne (getD_eq_nil_of_le _ _ (by rw [hI.hlen]; omega))
      obtain ⟨y, hy, hpop⟩ := popAux_first_nonempty h.distances 129 h.best j (by omega) hjb
        (by omega) hjne hjleast
      have hpe : h.pop.2 = ⟨h.distances.set j (h.distances.getD j []).dropLast, j⟩ := by
        unfold pop
        rw [hpop]
      rw [hpe]
      refine ⟨?_, by show j ≤ 128; omega, ?_⟩
      · show (h.distances.set j (h.distances.getD j []).dropLast).length = 129
        simpa using hI.hlen
      · intro i hi
        have hij : i < j := hi
        show (h.distances.set j (h.distances.getD j []).dropLast).getD i [] = []
        rw [getD_set_ne h.distances j i _ (by omega)]
        rcases Nat.lt_or_ge i h.best with hi2 | hi2
        · exact hI.hbelow i hi2
        · exact hjleast i hi2 hij
  | clearOp =>
    simp only [applyHOp, Option.some.injEq] at happ
    rw [← happ]
    have hce : h.clear =
        ⟨h.distances.take h.best ++ (h.distances.drop h.best).map (fun _ => []), 0⟩ := rfl
    rw [hce]
    refine ⟨?_, by show (0 : Nat) ≤ 128; omega, ?_⟩
    · show (h.distances.take h.best ++ (h.distances.drop h.best).map (fun _ => [])).length = 129
      rw [List.length_append, List.length_take, List.length_map, List.length_drop, hI.hlen]
      have := hI.hb
      omega
    · intro i hi
      have hi0 : i < 0 := hi
      omega

theorem HInv_applyHOps (ops : List (HOp T)) :
    ∀ h h1, HInv h → applyHOps h ops = some h1 → HInv h1 := by
  induction ops with
  | nil =>
    intro h h1 hI happ
    simp only [applyHOps, Option.some.injEq] at happ
    rw [← happ]
    exact hI
  | cons op rest ih =>
    intro h h1 hI happ
    simp only [applyHOps] at happ
    cases hop : applyHOp h op with
    | none =>
      rw [hop] at happ
      simp at happ
    | some h2 =>
      rw [hop] at happ
      simp only at happ
      exact ih h2 h1 (HInv_applyHOp h hI op h2 hop) happ

end HammingHeap128

/-! ## Claim theorems C2 and C5 -/

/-- C2: pushing any sequence of `(distance, node)` pairs with distances in
`[0, 128]` into a fresh `HammingHeap128` and then popping repeatedly yields
exactly the pushed pairs (as a multiset, so every popped distance is the one
it was pushed with), in non-decreasing distance order, with the number of
successful pops equal to the number of pushes, after which `pop` returns
`none`. -/
theorem claim_C2_pop_sorted_complete {T : Type} (ps : List (Nat × T))
    (hall : ∀ p ∈ ps, p.1 ≤ 128) :
    ∃ h : HammingHeap128 T, HammingHeap128.pushList HammingHeap128.new ps = some h ∧
      (HammingHeap128.drainN ps.length h).1.length = ps.length ∧
      List.Sorted (· ≤ ·) (((HammingHeap128.drainN ps.length h).1).map Prod.fst) ∧
      (((HammingHeap128.drainN ps.length h).1 : List (Nat × T)) : Multiset (Nat × T)) =
        (ps : Multiset (Nat × T)) ∧
      ((HammingHeap128.drainN ps.length h).2.pop).1 = none := by
  obtain ⟨h, hrun, hbest, hlen, hms, hbuckets⟩ :=
    HammingHeap128.pushList_spec ps HammingHeap128.new (HammingHeap128.new_length T) hall
  have hmsnew : (pairListFrom 0 (HammingHeap128.new : HammingHeap128 T).distances :
      Multiset (Nat × T)) = 0 := by
    have hplnew : pairListFrom 0 (HammingHeap128.new : HammingHeap128 T).distances = [] := by
      apply List.length_eq_zero.mp
      rw [length_pairListFrom]
      apply totalCount_eq_zero
      intro i
      show (List.replicate 129 ([] : List T)).getD i [] = []
      rcases Nat.lt_or_ge i 129 with hi | hi
      · rw [List.getD_eq_getElem?_getD, List.getElem?_replicate, if_pos hi]
        rfl
      · exact getD_eq_nil_of_le _ _ (by simpa using hi)
    rw [hplnew]
    rfl
  have hms2 : (pairListFrom 0 h.distances : Multiset (Nat × T)) = (ps : Multiset (Nat × T)) := by
    rw [hms, hmsnew, zero_add]
  have htot : totalCount h.distances = ps.length := by
    have hc := congrArg Multiset.card hms2
    rw [Multiset.coe_card, Multiset.coe_card, length_pairListFrom] at hc
    exact hc
  have hb0 : h.best = 0 := by
    have := hbest
    simp [HammingHeap128.new] at this
    omega
  obtain ⟨hdlen, hdmem, hdsorted, hdms, hdpop⟩ :=
    HammingHeap128.drain_spec ps.length h hlen (by omega) (by rw [hb0]; omega) htot
  exact ⟨h, hrun, hdlen, hdsorted, by rw [← hdms, hms2], hdpop⟩

/-- Witness for C2: the spec scenario, distances 5, 4, 3, 2 pushed in order. -/
theorem claim_C2_pop_sorted_complete_witness :
    ∃ h : HammingHeap128 Nat,
      HammingHeap128.pushList HammingHeap128.new [(5, 0), (4, 1), (3, 2), (2, 3)] = some h ∧
      (HammingHeap128.drainN 4 h).1.length = 4 ∧
      List.Sorted (· ≤ ·) (((HammingHeap128.drainN 4 h).1).map Prod.fst) ∧
      (((HammingHeap128.drainN 4 h).1 : List (Nat × Nat)) : Multiset (Nat × Nat)) =
        ([(5, 0), (4, 1), (3, 2), (2, 3)] : List (Nat × Nat)) ∧
      ((HammingHeap128.drainN 4 h).2.pop).1 = none := by
  exact claim_C2_pop_sorted_complete [(5, 0), (4, 1), (3, 2), (2, 3)] (by decide)

/-- C5: the watermark cursors are exact. In `HammingHeap128`, after any
sequence of pushes (with in-range distances), pops, and clears starting from
a fresh queue, every bucket strictly below `best` is empty; in a full
configured `FixedHammingHeap`, after any panic-free call sequence, every
bucket strictly above `worst` is empty. -/
theorem claim_C5_watermark_exact :
    (∀ (T : Type) (ops : List (HammingHeap128.HOp T)) (h1 : HammingHeap128 T),
      HammingHeap128.applyHOps HammingHeap128.new ops = some h1 →
      ∀ i, i < h1.best → h1.distances.getD i [] = []) ∧
    (∀ (T : Type) (D k : Nat), 1 ≤ D → 1 ≤ k →
      ∀ (h0 h1 : FixedHammingHeap T) (ops : List (FOp T)),
      configure T D k = some h0 → applyFOps h0 ops = some h1 →
      h1.size = h1.cap → ∀ i, h1.worst < i → h1.distances.getD i [] = []) := by
  constructor
  · intro T ops h1 happ
    exact (HammingHeap128.HInv_applyHOps ops HammingHeap128.new h1
      (HammingHeap128.HInv_new T) happ).hbelow
  · intro T D k hD hk h0 h1 ops hcfg happ hfull
    rw [configure_eq D k (by omega)] at hcfg
    have h0eq : h0 = ⟨k, 0, D - 1, List.replicate D []⟩ := by
      injection hcfg with hh
      exact hh.symm
    have hI0 : FInv h0 := by
      rw [h0eq]
      exact FInv_configure D k hD hk
    obtain ⟨hI1, _⟩ := FInv_applyFOps ops h0 h1 hI0 happ
    exact (hI1.hfull hfull).2

/-- Witness for C5 at concrete inputs: the empty call sequence on a fresh
`HammingHeap128`, and one filling push on a `FixedHammingHeap` with `D = 2`,
`cap = 1`. -/
theorem claim_C5_watermark_exact_witness :
    (∀ i, i < (HammingHeap128.new : HammingHeap128 Nat).best →
      (HammingHeap128.new : HammingHeap128 Nat).distances.getD i [] = []) ∧
    ∀ i, (⟨1, 1, 0, [[5], []]⟩ : FixedHammingHeap Nat).worst < i →
      (⟨1, 1, 0, [[5], []]⟩ : FixedHammingHeap Nat).distances.getD i [] = [] := by
  constructor
  · exact claim_C5_watermark_exact.1 Nat [] HammingHeap128.new rfl
  · exact claim_C5_watermark_exact.2 Nat 2 1 (by omega) (by omega)
      ⟨1, 0, 1, [[], []]⟩ ⟨1, 1, 0, [[5], []]⟩ [FOp.pushOp 0 5] (by decide) (by decide) rfl

/-- Witness for C7: configure with `D = 2`, `k = 1`, run no operations; the
heap is below capacity and `worst` is `D - 1 = 1`. -/
theorem claim_C7_worst_max_below_cap_witness :
    (⟨1, 0, 1, [[], []]⟩ : FixedHammingHeap Nat).worst = 2 - 1 :=
  claim_C7_worst_max_below_cap 2 1 (by omega) (by omega)
    ⟨1, 0, 1, [[], []]⟩ ⟨1, 0, 1, [[], []]⟩ [] (by decide) rfl (by decide)

/-- Witness for C10: configure with `D = 2`, `k = 1`, push one item; `len()`
matches the stored item count and `fill_slice` writes exactly that many. -/
theorem claim_C10_len_is_item_count_witness :
    (⟨1, 1, 0, [[5], []]⟩ : FixedHammingHeap Nat).len =
        totalCount (⟨1, 1, 0, [[5], []]⟩ : FixedHammingHeap Nat).distances ∧
      ∀ buf : List Nat, (⟨1, 1, 0, [[5], []]⟩ : FixedHammingHeap Nat).len ≤ buf.length →
        ((⟨1, 1, 0, [[5], []]⟩ : FixedHammingHeap Nat).fill_slice buf).length =
          (⟨1, 1, 0, [[5], []]⟩ : FixedHammingHeap Nat).len :=
  claim_C10_len_is_item_count 2 1 (by omega) (by omega)
    ⟨1, 0, 1, [[], []]⟩ ⟨1, 1, 0, [[5], []]⟩ [FOp.pushOp 0 5] (by decide) (by decide)

/-! ## C8: the regression-test scenario, evaluated on the model -/

/-- C8: with 11 distances and capacity 3, pushing distances
`5,4,3,6,7,2,3,10,6,4,1,2` with item ids `0..11` retains exactly the items
`10, 5, 11` (distances `1, 2, 2`), and `fill_slice` into a length-3 buffer
yields exactly those three items; the push return values match the
regression test. -/
theorem claim_C8_regression_scenario :
    ∃ h : FixedHammingHeap Nat,
      (do
        let h0 ← configure Nat 11 3
        let (h1, b1) ← h0.push 5 0
        let (h2, b2) ← h1.push 4 1
        let (h3, b3) ← h2.push 3 2
        let (h4, b4) ← h3.push 6 3
        let (h5, b5) ← h4.push 7 4
        let (h6, b6) ← h5.push 2 5
        let (h7, b7) ← h6.push 3 6
        let (h8, b8) ← h7.push 10 7
        let (h9, b9) ← h8.push 6 8
        let (h10, b10) ← h9.push 4 9
        let (h11, b11) ← h10.push 1 10
        let (h12, b12) ← h11.push 2 11
        pure (h12, [b1, b2, b3, b4, b5, b6, b7, b8, b9, b10, b11, b12])) =
        some (h, [true, true, true, false, false, true, true, false, false, false, true, true]) ∧
      h.fill_slice [99, 99, 99] = [10, 5, 11] ∧
      distMS h = ({1, 2, 2} : Multiset Nat) := by
  refine ⟨⟨3, 3, 2, [[], [10], [5, 11], [], [], [], [], [], [], [], []]⟩, ?_, ?_, ?_⟩
  · rfl
  · rfl
  · decide

/-! ## C4: out-of-range distances -/

/-- C4 counterexample: on a configured `FixedHammingHeap` with `D = 11`,
`cap = 1` in the Full state, pushing the out-of-range distance `11 = D` does
NOT panic: `push` routes to the full-state fast path, whose `d < worst` test
fails (`worst = 0 ≤ D - 1 < d`), so it silently returns `false` with the
state unchanged — contradicting the claim that every insertion operation
panics on `d >= D`. -/
theorem claim_C4_counterexample :
    ∃ h : FixedHammingHeap Nat,
      (do
        let h0 ← configure Nat 11 1
        let (h1, _) ← h0.push 0 0
        pure h1) = some h ∧
      h.size = h.cap ∧
      h.push 11 99 = some (h, false) := by
  exact ⟨⟨1, 1, 0, [[0], [], [], [], [], [], [], [], [], [], []]⟩, rfl, rfl, rfl⟩

/-- C4 amended: `HammingHeap128::push` panics on `d ≥ 129` and
`FixedHammingHeap::push` in the non-full state panics on `d ≥ D`, in both
cases before any observable state change (the panic aborts); in the Full
state (the `push_at_cap` fast path) an out-of-range `d ≥ D` is instead
rejected without panicking: since `worst ≤ D - 1 < d` the `d < worst` guard
fails, `push` returns `false` and the state is unchanged. The bucket index is
never wrapped or truncated in any path. -/
theorem claim_C4_amended {T : Type} :
    (∀ (h : HammingHeap128 T) (d : Nat) (x : T), 129 ≤ d → h.push d x = none) ∧
    (∀ (h : FixedHammingHeap T) (d : Nat) (x : T), h.size ≠ h.cap →
      h.distances.length ≤ d → h.push d x = none) ∧
    (∀ (h : FixedHammingHeap T) (d : Nat) (x : T), h.worst < h.distances.length →
      h.size = h.cap → h.distances.length ≤ d → h.push d x = some (h, false)) := by
  refine ⟨?_, ?_, ?_⟩
  · intro h d x hd
    unfold HammingHeap128.push
    rw [if_neg (by omega)]
  · intro h d x hne hd
    unfold FixedHammingHeap.push
    rw [if_pos hne, if_neg (by omega)]
  · intro h d x hw hfull hd
    unfold FixedHammingHeap.push FixedHammingHeap.push_at_cap
    rw [if_neg (by omega : ¬ h.size ≠ h.cap), if_neg (by omega : ¬ d < h.worst)]

/-- Witness for the amended C4 at concrete inputs. -/
theorem claim_C4_amended_witness :
    HammingHeap128.push (HammingHeap128.new : HammingHeap128 Nat) 129 7 = none ∧
    FixedHammingHeap.push (⟨1, 0, 1, [[], []]⟩ : FixedHammingHeap Nat) 2 7 = none ∧
    FixedHammingHeap.push (⟨1, 1, 0, [[5], []]⟩ : FixedHammingHeap Nat) 2 7 =
      some (⟨1, 1, 0, [[5], []]⟩, false) :=
  ⟨claim_C4_amended.1 HammingHeap128.new 129 7 (by omega),
   claim_C4_amended.2.1 ⟨1, 0, 1, [[], []]⟩ 2 7 (by decide) (by decide),
   claim_C4_amended.2.2 ⟨1, 1, 0, [[5], []]⟩ 2 7 (by decide) rfl (by decide)⟩

/-! ## C3: `set_len` removes from the BEST end (code bug) -/

/-- C3 evaluated at a failing input: a configured heap (`D = 11`, `cap = 3`)
holding items at distances 1 and 5. `set_len 1` walks the buckets from
index 0 upward (`for vec in &mut self.distances[..=end]`), so it removes the
item at distance 1 — the BEST item — and retains the distance-5 item,
contradicting the claim (and `set_capacity`'s own doc comment) that items are
removed from the worst end inward. `set_capacity 1` inherits the same
behavior and leaves the retained set `{5}`, not the new-cap smallest `{1}`. -/
theorem claim_C3_set_len_removes_best :
    ∃ h : FixedHammingHeap Nat,
      (do
        let h0 ← configure Nat 11 3
        let (h1, _) ← h0.push 1 0
        let (h2, _) ← h1.push 5 1
        pure h2) = some h ∧
      distMS h = ({1, 5} : Multiset Nat) ∧
      (h.set_len 1).len = 1 ∧
      distMS (h.set_len 1) = ({5} : Multiset Nat) ∧
      distMS (h.set_len 1) ≠ ({1} : Multiset Nat) ∧
      (∃ hc, h.set_capacity 1 = some hc ∧ distMS hc = ({5} : Multiset Nat) ∧
        distMS hc ≠ ({1} : Multiset Nat)) := by
  refine ⟨⟨3, 2, 10, [[], [0], [], [], [], [1], [], [], [], [], []]⟩,
    rfl, by decide, rfl, by decide, by decide, ?_⟩
  refine ⟨⟨1, 1, 5, [[], [], [], [], [], [1], [], [], [], [], []]⟩, ?_, by decide, by decide⟩
  rfl

/-! ## The "k smallest" selection predicate -/

theorem selection_unique {k : Nat} {m s1 s2 : Multiset Nat}
    (h1 : IsSelection k m s1) (h2 : IsSelection k m s2) : s1 = s2 := by
  obtain ⟨hle1, hcard1, hmin1⟩ := h1
  obtain ⟨hle2, hcard2, hmin2⟩ := h2
  have hcard : s1.card = s2.card := by rw [hcard1, hcard2]
  have hkey : s1 - s2 = 0 ∨ s2 - s1 = 0 := by
    by_contra hcon
    push_neg at hcon
    obtain ⟨hne1, hne2⟩ := hcon
    obtain ⟨a, ha⟩ := Multiset.exists_mem_of_ne_zero hne1
    obtain ⟨b, hb⟩ := Multiset.exists_mem_of_ne_zero hne2
    have hca : s2.count a < s1.count a := by
      have := Multiset.count_pos.mpr ha
      rw [Multiset.count_sub] at this
      omega
    have hcb : s1.count b < s2.count b := by
      have := Multiset.count_pos.mpr hb
      rw [Multiset.count_sub] at this
      omega
    have hams2 : a ∈ m - s2 := by
      rw [← Multiset.count_pos, Multiset.count_sub]
      have h3 : s1.count a ≤ m.count a := Multiset.le_iff_count.mp hle1 a
      omega
    have hbms1 : b ∈ m - s1 := by
      rw [← Multiset.count_pos, Multiset.count_sub]
      have h3 : s2.count b ≤ m.count b := Multiset.le_iff_count.mp hle2 b
      omega
    have has1 : a ∈ s1 := by
      rw [← Multiset.count_pos]
      omega
    have hbs2 : b ∈ s2 := by
      rw [← Multiset.count_pos]
      omega
    have hab : a ≤ b := hmin1 a has1 b hbms1
    have hba : b ≤ a := hmin2 b hbs2 a hams2
    have heq : a = b := le_antisymm hab hba
    rw [heq] at hca
    omega
  rcases hkey with hk1 | hk2
  · exact Multiset.eq_of_le_of_card_le (tsub_eq_zero_iff_le.mp hk1) (by omega)
  · exact (Multiset.eq_of_le_of_card_le (tsub_eq_zero_iff_le.mp hk2) (by omega)).symm

theorem kSmallest_selection (k : Nat) (m : Multiset Nat) : IsSelection k m (kSmallest k m) := by
  refine ⟨?_, ?_, ?_⟩
  · show (((m.sort (· ≤ ·)).take k : List Nat) : Multiset Nat) ≤ m
    conv_rhs => rw [← Multiset.sort_eq (· ≤ ·) m]
    exact Multiset.coe_le.mpr ((List.take_sublist k (m.sort (· ≤ ·))).subperm)
  · show Multiset.card (((m.sort (· ≤ ·)).take k : List Nat) : Multiset Nat) = min k m.card
    rw [Multiset.coe_card, List.length_take, Multiset.length_sort]
  · intro x hx y hy
    have hsplit : m = (((m.sort (· ≤ ·)).take k : List Nat) : Multiset Nat) +
        (((m.sort (· ≤ ·)).drop k : List Nat) : Multiset Nat) := by
      conv_lhs => rw [← Multiset.sort_eq (· ≤ ·) m]
      rw [Multiset.coe_add, List.take_append_drop]
    have hyd : y ∈ (m.sort (· ≤ ·)).drop k := by
      have hy2 : y ∈ m - (((m.sort (· ≤ ·)).take k : List Nat) : Multiset Nat) := hy
      nth_rewrite 1 [hsplit] at hy2
      rw [add_tsub_cancel_left] at hy2
      simpa using hy2
    have hsorted := Multiset.sort_sorted (· ≤ ·) m
    have hpw : ∀ a ∈ (m.sort (· ≤ ·)).take k, ∀ b ∈ (m.sort (· ≤ ·)).drop k, a ≤ b := by
      have hs2 := hsorted
      rw [← List.take_append_drop k (m.sort (· ≤ ·))] at hs2
      exact (List.pairwise_append.mp hs2).2.2
    have hxt : x ∈ (m.sort (· ≤ ·)).take k := by
      unfold kSmallest at hx
      simpa using hx
    exact hpw x hxt y hyd

theorem selection_insert_below (k : Nat) (acc s : Multiset Nat)
    (hsel : IsSelection k acc s) (hlt : s.card < k) (d : Nat) :
    IsSelection k (d ::ₘ acc) (d ::ₘ s) := by
  obtain ⟨hle, hcard, hmin⟩ := hsel
  have hacc : acc = s := by
    have h1 : s.card = acc.card := by
      rcases Nat.lt_or_ge acc.card k with h2 | h2
      · omega
      · omega
    exact (Multiset.eq_of_le_of_card_le hle (by omega)).symm
  rw [hacc]
  refine ⟨le_refl _, ?_, ?_⟩
  · rw [Multiset.card_cons]
    omega
  · intro x hx y hy
    rw [tsub_self] at hy
    exact absurd hy (Multiset.not_mem_zero y)

theorem selection_full_accept (k : Nat) (acc s : Multiset Nat) (w d : Nat)
    (hsel : IsSelection k acc s) (hcardk : s.card = k)
    (hwmem : w ∈ s) (hwmax : ∀ x ∈ s, x ≤ w) (hd : d < w) :
    IsSelection k (d ::ₘ acc) (d ::ₘ s.erase w) := by
  obtain ⟨hle, hcard, hmin⟩ := hsel
  have hkpos : 0 < k := by
    have h0 : 0 < Multiset.card s := Multiset.card_pos_iff_exists_mem.mpr ⟨w, hwmem⟩
    omega
  have hacck : k ≤ acc.card := by
    have := Multiset.card_le_card hle
    omega
  refine ⟨Multiset.cons_le_cons d (le_trans (Multiset.erase_le w s) hle), ?_, ?_⟩
  · rw [Multiset.card_cons, Multiset.card_erase_of_mem hwmem, Multiset.card_cons]
    rw [hcardk]
    have hp : Nat.pred k + 1 = k := Nat.succ_pred_eq_of_pos hkpos
    omega
  · intro x hx y hy
    have hxw : x ≤ w := by
      rcases Multiset.mem_cons.mp hx with hx1 | hx2
      · omega
      · exact hwmax x (Multiset.mem_of_mem_erase hx2)
    have hcy := Multiset.count_pos.mpr hy
    rw [Multiset.count_sub] at hcy
    by_cases hyw : y = w
    · omega
    · have h1 : (d ::ₘ acc).count y = acc.count y + (if y = d then 1 else 0) := by
        rw [Multiset.count_cons]
      have h2 : (d ::ₘ s.erase w).count y = (s.erase w).count y + (if y = d then 1 else 0) := by
        rw [Multiset.count_cons]
      have h3 : (s.erase w).count y = s.count y := Multiset.count_erase_of_ne hyw s
      have hyacc : y ∈ acc - s := by
        rw [← Multiset.count_pos, Multiset.count_sub]
        have h4 : s.count y ≤ acc.count y := Multiset.le_iff_count.mp hle y
        omega
      have hwy : w ≤ y := hmin w hwmem y hyacc
      omega

theorem selection_full_reject (k : Nat) (acc s : Multiset Nat) (w d : Nat)
    (hsel : IsSelection k acc s) (hcardk : s.card = k)
    (hwmem : w ∈ s) (hwmax : ∀ x ∈ s, x ≤ w) (hd : w ≤ d) :
    IsSelection k (d ::ₘ acc) s := by
  obtain ⟨hle, hcard, hmin⟩ := hsel
  have hacck : k ≤ acc.card := by
    have := Multiset.card_le_card hle
    omega
  refine ⟨le_trans hle (Multiset.le_cons_self acc d), ?_, ?_⟩
  · rw [Multiset.card_cons, hcardk]
    omega
  · intro x hx y hy
    have hxw : x ≤ w := hwmax x hx
    have hcy := Multiset.count_pos.mpr hy
    rw [Multiset.count_sub] at hcy
    by_cases hyd : y = d
    · omega
    · have h1 : (d ::ₘ acc).count y = acc.count y := Multiset.count_cons_of_ne hyd acc
      have hyacc : y ∈ acc - s := by
        rw [← Multiset.count_pos, Multiset.count_sub]
        have h4 : s.count y ≤ acc.count y := Multiset.le_iff_count.mp hle y
        omega
      exact le_trans hxw (hmin w hwmem y hyacc)

/-! ## Tagged buckets: items carrying their own distance -/

theorem getD_replicate_nil (D i : Nat) :
    (List.replicate D ([] : List T)).getD i [] = [] := by
  rcases Nat.lt_or_ge i D with hi | hi
  · rw [List.getD_eq_getElem?_getD, List.getElem?_replicate, if_pos hi]
    rfl
  · exact getD_eq_nil_of_le _ _ (by simpa using hi)

theorem TaggedFrom_set_append {α : Type} (l : List (List (Nat × α))) (d : Nat) (q : Nat × α)
    (ht : TaggedFrom 0 l) (hq : q.1 = d) :
    TaggedFrom 0 (l.set d (l.getD d [] ++ [q])) := by
  intro i p hp
  by_cases hd : d < l.length
  · by_cases hid : d = i
    · subst hid
      rw [getD_set_self l d _ hd] at hp
      rcases List.mem_append.mp hp with hp1 | hp2
      · exact ht d p hp1
      · have : p = q := by simpa using hp2
        rw [this, hq]
        omega
    · rw [getD_set_ne l d i _ hid] at hp
      exact ht i p hp
  · rw [List.set_eq_of_length_le (by omega)] at hp
    exact ht i p hp

theorem TaggedFrom_set_dropLast {α : Type} (l : List (List (Nat × α))) (d : Nat)
    (ht : TaggedFrom 0 l) :
    TaggedFrom 0 (l.set d (l.getD d []).dropLast) := by
  intro i p hp
  by_cases hd : d < l.length
  · by_cases hid : d = i
    · subst hid
      rw [getD_set_self l d _ hd] at hp
      exact ht d p ((List.dropLast_sublist _).subset hp)
    · rw [getD_set_ne l d i _ hid] at hp
      exact ht i p hp
  · rw [List.set_eq_of_length_le (by omega)] at hp
    exact ht i p hp

theorem push_tagged {α : Type} (h : FixedHammingHeap (Nat × α)) (d : Nat) (q : Nat × α)
    (ht : TaggedFrom 0 h.distances) (hq : q.1 = d) (h1 : FixedHammingHeap (Nat × α)) (b : Bool)
    (hpush : h.push d q = some (h1, b)) : TaggedFrom 0 h1.distances := by
  have htset : TaggedFrom 0 (h.distances.set d (h.distances.getD d [] ++ [q])) :=
    TaggedFrom_set_append h.distances d q ht hq
  unfold FixedHammingHeap.push at hpush
  by_cases hc : h.size ≠ h.cap
  · rw [if_pos hc] at hpush
    by_cases hd : d < h.distances.length
    · rw [if_pos hd] at hpush
      simp only [Option.some.injEq, Prod.mk.injEq] at hpush
      obtain ⟨hh1, _⟩ := hpush
      rw [← hh1]
      by_cases hcap2 : h.size + 1 = h.cap
      · rw [if_pos (by simpa using hcap2)]
        exact htset
      · rw [if_neg (by simpa using hcap2)]
        exact htset
    · rw [if_neg hd] at hpush
      simp at hpush
  · rw [if_neg hc] at hpush
    unfold FixedHammingHeap.push_at_cap at hpush
    by_cases hdw : d < h.worst
    · rw [if_pos hdw] at hpush
      by_cases hd : d < h.distances.length
      · rw [if_pos hd] at hpush
        simp only [Option.some.injEq, Prod.mk.injEq] at hpush
        obtain ⟨hh1, _⟩ := hpush
        rw [← hh1]
        show TaggedFrom 0 (FixedHammingHeap.remove_worst _).distances
        unfold FixedHammingHeap.remove_worst
        exact TaggedFrom_set_dropLast _ _ htset
      · rw [if_neg hd] at hpush
        simp at hpush
    · rw [if_neg hdw] at hpush
      simp only [Option.some.injEq, Prod.mk.injEq] at hpush
      obtain ⟨hh1, _⟩ := hpush
      rw [← hh1]
      exact ht

theorem map_fst_flatten_tagged {α : Type} (l : List (List (Nat × α))) :
    ∀ b, TaggedFrom b l → l.flatten.map Prod.fst = distListFrom b l := by
  induction l with
  | nil => intro b ht; rfl
  | cons v rest ih =>
    intro b ht
    show (v ++ rest.flatten).map Prod.fst = List.replicate v.length b ++ distListFrom (b + 1) rest
    rw [List.map_append]
    have hv : v.map Prod.fst = List.replicate v.length b := by
      rw [List.eq_replicate_iff]
      refine ⟨by simp, ?_⟩
      intro y hy
      obtain ⟨p, hp, hpy⟩ := List.mem_map.mp hy
      have := ht 0 p (by simpa using hp)
      omega
    have hrest : TaggedFrom (b + 1) rest := by
      intro i p hp
      have := ht (i + 1) p (by simpa using hp)
      omega
    rw [hv, ih (b + 1) hrest]

theorem flatten_take_of_above_empty (l : List (List T)) (e : Nat)
    (hab : ∀ j, e < j → l.getD j [] = []) :
    (l.take (e + 1)).flatten = l.flatten := by
  conv_rhs => rw [← List.take_append_drop (e + 1) l]
  rw [List.flatten_append]
  have hdrop : (l.drop (e + 1)).flatten = [] := by
    rw [List.flatten_eq_nil_iff]
    intro v hv
    obtain ⟨i, hi, hiv⟩ := List.getElem_of_mem hv
    have h2 : (l.drop (e + 1)).getD i [] = v := by
      rw [List.getD_eq_getElem?_getD, List.getElem?_eq_getElem hi, hiv]
      rfl
    rw [getD_drop] at h2
    rw [← h2]
    exact hab (e + 1 + i) (by omega)
  rw [hdrop, List.append_nil]

/-! ## The BoundedTopK selection invariant across pushes -/

theorem pushList_selection {α : Type} (k : Nat) (qs : List (Nat × (Nat × α))) :
    ∀ (h : FixedHammingHeap (Nat × α)) (acc : Multiset Nat),
      FInv h → h.cap = k → (∀ q ∈ qs, q.1 < h.distances.length) →
      (∀ q ∈ qs, q.2.1 = q.1) → IsSelection k acc (distMS h) → TaggedFrom 0 h.distances →
      ∃ h1, pushList h qs = some h1 ∧ FInv h1 ∧ h1.cap = k ∧
        h1.distances.length = h.distances.length ∧
        IsSelection k (acc + ((qs.map Prod.fst : List Nat) : Multiset Nat)) (distMS h1) ∧
        TaggedFrom 0 h1.distances ∧
        ∀ n h2, pushList h (qs.take n) = some h2 → h2.size ≤ k := by
  induction qs with
  | nil =>
    intro h acc hI hcap hin htag hsel ht
    refine ⟨h, rfl, hI, hcap, rfl, by simpa using hsel, ht, ?_⟩
    intro n h2 hp2
    have hp3 : pushList h ([] : List (Nat × (Nat × α))) = some h2 := by
      rw [List.take_nil] at hp2
      exact hp2
    have hh2 : h = h2 := by
      simpa [pushList] using hp3
    rw [← hh2]
    have := hI.hsc
    omega
  | cons q rest ih =>
    intro h acc hI hcap hin htag hsel ht
    have hd : q.1 < h.distances.length := hin q (by simp)
    obtain ⟨hmid, b, hpush, hImid, hcapmid, hlenmid, hopen, hiff, haccept, hrej⟩ :=
      push_spec h q.1 q.2 hI hd
    have hpushq : h.push q.1 q.2 = some (hmid, b) := hpush
    have hselmid : IsSelection k (q.1 ::ₘ acc) (distMS hmid) := by
      rcases Nat.lt_or_eq_of_le hI.hsc with hlt | heq
      · obtain ⟨hb, hs, hms⟩ := hopen hlt
        rw [hms]
        refine selection_insert_below k acc (distMS h) hsel ?_ q.1
        have hc := card_distMS h
        have hs2 := hI.hsize
        omega
      · by_cases hdw : q.1 < h.worst
        · obtain ⟨hs, hms, hw⟩ := haccept heq hdw
          rw [hms]
          refine selection_full_accept k acc (distMS h) h.worst q.1 hsel ?_ ?_ ?_ hdw
          · have hc := card_distMS h
            have hs2 := hI.hsize
            omega
          · exact worst_mem_distMS h hI.hw (hI.hfull heq)
          · exact distMS_le_worst h (hI.hfull heq)
        · obtain ⟨hh1, hb⟩ := hrej heq hdw
          rw [hh1]
          refine selection_full_reject k acc (distMS h) h.worst q.1 hsel ?_ ?_ ?_ (by omega)
          · have hc := card_distMS h
            have hs2 := hI.hsize
            omega
          · exact worst_mem_distMS h hI.hw (hI.hfull heq)
          · exact distMS_le_worst h (hI.hfull heq)
    have htagq : q.2.1 = q.1 := htag q (by simp)
    have htmid : TaggedFrom 0 hmid.distances := push_tagged h q.1 q.2 ht htagq hmid b hpushq
    obtain ⟨h1, hrun, hI1, hcap1, hlen1, hsel1, ht1, hpre⟩ :=
      ih hmid (q.1 ::ₘ acc) hImid (by rw [hcapmid, hcap])
        (fun p hp => by rw [hlenmid]; exact hin p (by simp [hp]))
        (fun p hp => htag p (by simp [hp])) hselmid htmid
    refine ⟨h1, ?_, hI1, hcap1, by rw [hlen1, hlenmid], ?_, ht1, ?_⟩
    · show pushList h (q :: rest) = some h1
      unfold pushList
      rw [hpushq]
      exact hrun
    · have he1 : (((q :: rest).map Prod.fst : List Nat) : Multiset Nat) =
          q.1 ::ₘ ((rest.map Prod.fst : List Nat) : Multiset Nat) := by
        rw [List.map_cons, ← Multiset.cons_coe]
      rw [he1]
      have he2 : acc + (q.1 ::ₘ ((rest.map Prod.fst : List Nat) : Multiset Nat)) =
          (q.1 ::ₘ acc) + ((rest.map Prod.fst : List Nat) : Multiset Nat) := by
        rw [Multiset.add_cons, Multiset.cons_add]
      rw [he2]
      exact hsel1
    · intro n h2 hp2
      cases n with
      | zero =>
        rw [List.take_zero] at hp2
        have hh2 : h = h2 := by
          simpa [pushList] using hp2
        rw [← hh2]
        have := hI.hsc
        omega
      | succ n =>
        rw [List.take_succ_cons] at hp2
        unfold pushList at hp2
        rw [hpushq] at hp2
        exact hpre n h2 hp2

/-- C1: for every capacity `k ≥ 1`, distance count `D ≥ 1`, and sequence of
pushes with in-range distances into a configured `FixedHammingHeap` (each
item tagged with its own distance), the retained set read back by
`fill_slice` with a buffer of length at least `k` is exactly the `k`
smallest-distance items among all pushed items, as a multiset of distances
(ties broken arbitrarily), and `len()` never exceeds `k` after any prefix of
the pushes. -/
theorem claim_C1_k_smallest {α : Type} (D k : Nat) (hD : 1 ≤ D) (hk : 1 ≤ k)
    (ps : List (Nat × α)) (hin : ∀ p ∈ ps, p.1 < D)
    (buf : List (Nat × α)) (hbuf : k ≤ buf.length) :
    ∃ h0 h : FixedHammingHeap (Nat × α),
      configure (Nat × α) D k = some h0 ∧
      pushList h0 (ps.map (fun p => (p.1, p))) = some h ∧
      (((h.fill_slice buf).map Prod.fst : List Nat) : Multiset Nat) =
        kSmallest k ((ps.map Prod.fst : List Nat) : Multiset Nat) ∧
      h.len ≤ k ∧
      (∀ n h2, pushList h0 ((ps.map (fun p => (p.1, p))).take n) = some h2 → h2.len ≤ k) := by
  have hcfg := configure_eq (T := Nat × α) D k (by omega)
  have hI0 : FInv (⟨k, 0, D - 1, List.replicate D []⟩ : FixedHammingHeap (Nat × α)) :=
    FInv_configure D k hD hk
  have hms0 : distMS (⟨k, 0, D - 1, List.replicate D []⟩ : FixedHammingHeap (Nat × α)) = 0 := by
    rw [← Multiset.card_eq_zero, card_distMS]
    show totalCount (List.replicate D ([] : List (Nat × α))) = 0
    exact totalCount_eq_zero _ (fun i => getD_replicate_nil D i)
  have hsel0 : IsSelection k 0
      (distMS (⟨k, 0, D - 1, List.replicate D []⟩ : FixedHammingHeap (Nat × α))) := by
    rw [hms0]
    refine ⟨le_refl _, by simp, ?_⟩
    intro x hx
    exact absurd hx (Multiset.not_mem_zero x)
  have ht0 : TaggedFrom 0
      (⟨k, 0, D - 1, List.replicate D []⟩ : FixedHammingHeap (Nat × α)).distances := by
    intro i p hp
    exfalso
    have h2 : (List.replicate D ([] : List (Nat × α))).getD i [] = [] := getD_replicate_nil D i
    rw [h2] at hp
    simp at hp
  obtain ⟨h1, hrun, hI1, hcap1, hlen1, hsel1, ht1, hpre⟩ :=
    pushList_selection k (ps.map fun p => (p.1, p))
      ⟨k, 0, D - 1, List.replicate D []⟩ 0 hI0 rfl
      (fun q hq => by
        obtain ⟨p, hp, hpq⟩ := List.mem_map.mp hq
        show q.1 < (List.replicate D ([] : List (Nat × α))).length
        rw [List.length_replicate, ← hpq]
        exact hin p hp)
      (fun q hq => by
        obtain ⟨p, hp, hpq⟩ := List.mem_map.mp hq
        rw [← hpq])
      hsel0 ht0
  have hmaps : ((ps.map fun p => (p.1, p)).map Prod.fst) = ps.map Prod.fst := by
    rw [List.map_map]
    rfl
  rw [hmaps] at hsel1
  rw [zero_add] at hsel1
  have hksm : distMS h1 = kSmallest k ((ps.map Prod.fst : List Nat) : Multiset Nat) :=
    selection_unique hsel1 (kSmallest_selection k _)
  have hszk : h1.size ≤ k := by
    have := hI1.hsc
    omega
  have hfill := fill_slice_eq h1 hI1 buf (by omega)
  have hflat := flatten_take_of_above_empty h1.distances h1.endIdx (above_endIdx_empty h1 hI1)
  have hmapfst := map_fst_flatten_tagged h1.distances 0 ht1
  refine ⟨⟨k, 0, D - 1, List.replicate D []⟩, h1, hcfg, hrun, ?_, hszk, hpre⟩
  rw [hfill, hflat, hmapfst]
  show distMS h1 = _
  exact hksm

/-- Witness for C1: the regression scenario `D = 11`, `k = 3`, distances
`5,4,3,6,7,2,3,10,6,4,1,2` with item ids `0..11`. -/
theorem claim_C1_k_smallest_witness :
    ∃ h0 h : FixedHammingHeap (Nat × Nat),
      configure (Nat × Nat) 11 3 = some h0 ∧
      pushList h0 (([(5, 0), (4, 1), (3, 2), (6, 3), (7, 4), (2, 5), (3, 6), (10, 7), (6, 8),
        (4, 9), (1, 10), (2, 11)] : List (Nat × Nat)).map (fun p => (p.1, p))) = some h ∧
      (((h.fill_slice [(99, 99), (99, 99), (99, 99)]).map Prod.fst : List Nat) : Multiset Nat) =
        kSmallest 3 (((([(5, 0), (4, 1), (3, 2), (6, 3), (7, 4), (2, 5), (3, 6), (10, 7), (6, 8),
          (4, 9), (1, 10), (2, 11)] : List (Nat × Nat)).map Prod.fst : List Nat) : Multiset Nat)) ∧
      h.len ≤ 3 := by
  obtain ⟨h0, h, hcfg, hrun, hfill, hlen, _⟩ :=
    claim_C1_k_smallest 11 3 (by omega) (by omega)
      ([(5, 0), (4, 1), (3, 2), (6, 3), (7, 4), (2, 5), (3, 6), (10, 7), (6, 8),
        (4, 9), (1, 10), (2, 11)] : List (Nat × Nat))
      (by decide) [(99, 99), (99, 99), (99, 99)] (by decide)
  exact ⟨h0, h, hcfg, hrun, hfill, hlen⟩

end HammingVerify
